import Mathlib

/-!
Verification of the time-block allocation core of the task-scheduler app
(`src/app.py`).  The Python functions `parse_time`, `time_to_minutes`,
`minutes_to_time`, `calculate_remaining_time` and `allocate_time_slots` are
embedded as executable Lean definitions below; Python exceptions
(`ValueError` from `strptime`, `KeyError` from the priority dictionary) are
modelled by `Option`, with `none` standing for a raised exception.
-/

/-- A parsed clock time, the result of `datetime.strptime(s, "%H:%M").time()`:
an hour and a minute. -/
structure PyTime where
  hour : Nat
  minute : Nat
deriving DecidableEq, Repr

/-- ASCII digit test, as matched by the `\d` character class of the
`strptime` regex on ASCII input. -/
def isDig (c : Char) : Bool := 48 ≤ c.toNat && c.toNat ≤ 57

/-- Numeric value of an ASCII digit character. -/
def digVal (c : Char) : Nat := c.toNat - 48

/-- The minute field of `strptime("%H:%M")`: the regex `[0-5]\d|\d`,
anchored at the end of the input (any unconverted trailing data raises). -/
def parseMin : List Char → Option Nat
  | [c1, c2] =>
    if isDig c1 && isDig c2 && decide (digVal c1 ≤ 5) then
      some (10 * digVal c1 + digVal c2)
    else none
  | [c1] => if isDig c1 then some (digVal c1) else none
  | _ => none

/-- The full `strptime("%H:%M")` pattern: hour regex `2[0-3]|[0-1]\d|\d`,
a literal colon, then the minute field.  The two-digit hour alternative is
taken exactly when the first two characters are digits forming a value
below 24 and the third character is the colon; otherwise the one-digit
alternative must be followed directly by the colon. -/
def parseHM : List Char → Option (Nat × Nat)
  | c1 :: c2 :: ':' :: ms =>
    if isDig c1 && isDig c2 && decide (10 * digVal c1 + digVal c2 ≤ 23) then
      (parseMin ms).map (fun m => (10 * digVal c1 + digVal c2, m))
    else none
  | c1 :: ':' :: ms =>
    if isDig c1 then (parseMin ms).map (fun m => (digVal c1, m)) else none
  | _ => none

/-- `parse_time` from `app.py`: `datetime.strptime(time_str, "%H:%M").time()`.
`none` models the `ValueError` raised on input the format does not match. -/
def parse_time (time_str : String) : Option PyTime :=
  match parseHM time_str.data with
  | some (h, m) => some ⟨h, m⟩
  | none => none

/-- `time_to_minutes` from `app.py`: `t.hour * 60 + t.minute`. -/
def time_to_minutes (t : PyTime) : Nat := t.hour * 60 + t.minute

/-- Python `f"{i:02d}"`: decimal representation zero-padded on the left to
width two (a negative number already has width at least two). -/
def pad2 (i : Int) : String := if 0 ≤ i ∧ i < 10 then "0" ++ toString i else toString i

/-- `minutes_to_time` from `app.py`: `f"{m // 60:02d}:{m % 60:02d}"`.
Python `//` and `%` with the positive divisor 60 agree with Lean's
`Int.ediv` / `Int.emod`. -/
def minutes_to_time (m : Int) : String := pad2 (m / 60) ++ ":" ++ pad2 (m % 60)

/-- The preference record: four `"HH:MM"` strings. -/
structure Preferences where
  wake_up_time : String
  work_start : String
  work_end : String
  bedtime : String
deriving DecidableEq

/-- The arithmetic inside `calculate_remaining_time`:
`total_day_minutes - used_minutes` with
`used_minutes = work_start_min - wake_up_min + work_end_min - work_start_min`. -/
def remaining_minutes (wakeMin wsMin weMin bedMin : Int) : Int :=
  let total_day_minutes := bedMin - wakeMin
  let used_minutes := wsMin - wakeMin + weMin - wsMin
  total_day_minutes - used_minutes

/-- `calculate_remaining_time` from `app.py`.  Parses the four preference
strings (a failure models the propagated `ValueError`) and formats the
remaining minutes. -/
def calculate_remaining_time (preferences : Preferences) : Option String :=
  match parse_time preferences.wake_up_time, parse_time preferences.work_start,
        parse_time preferences.work_end, parse_time preferences.bedtime with
  | some wake_up, some work_start, some work_end, some bedtime =>
    some (minutes_to_time (remaining_minutes (time_to_minutes wake_up)
      (time_to_minutes work_start) (time_to_minutes work_end) (time_to_minutes bedtime)))
  | _, _, _, _ => none

/-- A task record as handed to the allocator. -/
structure PyTask where
  id : Int
  description : String
  priority : String
  duration : Int
  completed : Bool
deriving DecidableEq, Repr

/-- A time block: `[start, end)` bounds in minutes, its kind tag, the
`available` capacity `end - start`, the running `used` counter and the
ordered list of tasks placed into it. -/
structure Block where
  startMin : Int
  endMin : Int
  btype : String
  available : Int
  used : Int
  tasks : List PyTask
deriving DecidableEq, Repr

/-- A freshly constructed block: `available = end - start`, `used = 0`,
empty task list. -/
def mkBlock (s e : Int) (ty : String) : Block := ⟨s, e, ty, e - s, 0, []⟩

/-- The dictionary `{"Critical": 0, "High": 1, "Medium": 2, "Low": 3}`;
`none` models the `KeyError` raised on any other key. -/
def priority_order (p : String) : Option Nat :=
  if p = "Critical" then some 0
  else if p = "High" then some 1
  else if p = "Medium" then some 2
  else if p = "Low" then some 3
  else none

/-- The sort key used by `sorted(..., key=lambda x: priority_order[x["priority"]])`,
defaulted for totality; it is only ever used under the guard that every
lookup succeeds. -/
def pKey (t : PyTask) : Nat := (priority_order t.priority).getD 0

def pLe (a b : PyTask) : Bool := decide (pKey a ≤ pKey b)

/-- The list comprehension `[t for t in tasks if not t["completed"]]`. -/
def incompleteTasks (tasks : List PyTask) : List PyTask :=
  tasks.filter (fun t => !t.completed)

/-- The sorted task list.  Python's `sorted` is a stable sort and evaluates
the key on every element, so a single unknown priority string raises
`KeyError` (modelled by `none`). -/
def sortIncomplete (tasks : List PyTask) : Option (List PyTask) :=
  if (incompleteTasks tasks).all (fun t => (priority_order t.priority).isSome) then
    some ((incompleteTasks tasks).mergeSort pLe)
  else none

/-- Remaining capacity of a block: `block["available"] - block["used"]`. -/
def remainingCap (b : Block) : Int := b.available - b.used

/-- Whole-task placement into one block: `used += duration`,
`tasks.append(task)`. -/
def wholePlace (b : Block) (t : PyTask) : Block :=
  { b with used := b.used + t.duration, tasks := b.tasks ++ [t] }

/-- The first placement loop: scan the candidate blocks in order and place
the whole task into the first block with `remaining >= duration`;
`none` when no block fits. -/
def placeWhole (t : PyTask) : List Block → Option (List Block)
  | [] => none
  | b :: bs =>
    if remainingCap b ≥ t.duration then some (wholePlace b t :: bs)
    else (placeWhole t bs).map (fun l => b :: l)

/-- The split fragment: `task.copy()` with the new duration and the fixed
literal `" (Part 1)"` suffix appended to the description. -/
def mkFrag (t : PyTask) (d : Int) : PyTask :=
  { t with duration := d, description := t.description ++ " (Part 1)" }

/-- Fragment placement into one block. -/
def fragPlace (b : Block) (t : PyTask) (d : Int) : Block :=
  { b with used := b.used + d, tasks := b.tasks ++ [mkFrag t d] }

/-- The splitting fallback loop: each block with strictly positive
remaining capacity takes `min(remaining, duration)`; the loop breaks as
soon as the outstanding duration reaches zero, and any duration left after
the last block is dropped. -/
def placeSplit (t : PyTask) : Int → List Block → List Block
  | _, [] => []
  | d, b :: bs =>
    if remainingCap b > 0 then
      if d - min (remainingCap b) d ≤ 0 then fragPlace b t (min (remainingCap b) d) :: bs
      else fragPlace b t (min (remainingCap b) d) :: placeSplit t (d - min (remainingCap b) d) bs
    else b :: placeSplit t d bs

/-- Processing of one task: try whole placement first, fall back to
splitting. -/
def allocTask (bs : List Block) (t : PyTask) : List Block :=
  match placeWhole t bs with
  | some bs2 => bs2
  | none => placeSplit t t.duration bs

/-- The allocation loop over all sorted tasks, carrying the blocks in the
scan order `[morning, evening, work]`. -/
def allocScan (sorted_tasks : List PyTask) (bs : List Block) : List Block :=
  sorted_tasks.foldl allocTask bs

/-- The three blocks in the candidate scan order
`[time_blocks[0], time_blocks[2], time_blocks[1]]` = [morning, evening, work]. -/
def scan_blocks (wakeMin wsMin weMin bedMin : Int) : List Block :=
  [mkBlock wakeMin wsMin "morning", mkBlock weMin bedMin "evening",
   mkBlock wsMin weMin "work"]

/-- Restore the construction order `[morning, work, evening]` used by the
schedule-assembly loop from the scan order `[morning, evening, work]`. -/
def constructionOrder : List Block → List Block
  | [m, e, w] => [m, w, e]
  | bs => bs

/-- The blocks after the whole placement phase, in construction order. -/
def allocBlocks (sorted_tasks : List PyTask) (wakeMin wsMin weMin bedMin : Int) : List Block :=
  constructionOrder (allocScan sorted_tasks (scan_blocks wakeMin wsMin weMin bedMin))

/-- One schedule row. -/
structure Entry where
  time : String
  task : String
  priority : String
  duration : Int
  id : Int
  completed : Bool
deriving DecidableEq, Repr

/-- The schedule row appended for a placed task at clock minute `ct`. -/
def mkEntry (ct : Int) (t : PyTask) : Entry :=
  ⟨minutes_to_time ct, t.description, t.priority, t.duration, t.id, t.completed⟩

/-- The inner assembly loop: `current_time` starts at the block start and
advances by each task's duration. -/
def blockEntriesAux (ct : Int) : List PyTask → List Entry
  | [] => []
  | t :: ts => mkEntry ct t :: blockEntriesAux (ct + t.duration) ts

def blockEntries (b : Block) : List Entry := blockEntriesAux b.startMin b.tasks

/-- The four fixed boundary entries. -/
def fixed_schedule (preferences : Preferences) : List Entry :=
  [⟨preferences.wake_up_time, "Wake Up", "Fixed", 0, -1, false⟩,
   ⟨preferences.work_start, "Work Time", "Fixed", 0, -2, false⟩,
   ⟨preferences.work_end, "Personal Time", "Fixed", 0, -3, false⟩,
   ⟨preferences.bedtime, "Go to Bed", "Fixed", 0, -4, false⟩]

/-- The final sort key `datetime.strptime(x["time"], "%H:%M").time()`,
as a minute count; `none` models the `ValueError` on an unparseable
time string. -/
def entryKey (e : Entry) : Option Nat :=
  (parseHM e.time.data).map (fun p => p.1 * 60 + p.2)

def entryKeyD (e : Entry) : Nat := (entryKey e).getD 0

def entryLe (a b : Entry) : Bool := decide (entryKeyD a ≤ entryKeyD b)

/-- `allocate_time_slots` from `app.py`.  Returns the pair
`(schedule, fixed_schedule)`; `none` models any raised exception
(`ValueError` from parsing a preference or a generated time string,
`KeyError` from an unknown priority).  Python's stable sorts are modelled
by `List.mergeSort`. -/
def allocate_time_slots (tasks : List PyTask) (preferences : Preferences) :
    Option (List Entry × List Entry) :=
  match parse_time preferences.wake_up_time, parse_time preferences.work_start,
        parse_time preferences.work_end, parse_time preferences.bedtime with
  | some wake_up, some work_start, some work_end, some bedtime =>
    match sortIncomplete tasks with
    | some sorted_tasks =>
      let bs := allocBlocks sorted_tasks (time_to_minutes wake_up : Int)
        (time_to_minutes work_start : Int) (time_to_minutes work_end : Int)
        (time_to_minutes bedtime : Int)
      let schedule := fixed_schedule preferences ++ bs.flatMap blockEntries
      if schedule.all (fun e => (entryKey e).isSome) then
        some (schedule.mergeSort entryLe, fixed_schedule preferences)
      else none
    | none => none
  | _, _, _, _ => none

/-! ### Digit and formatting lemmas -/

theorem isDig_digitChar (d : Nat) (h : d < 10) : isDig (Nat.digitChar d) = true := by
  interval_cases d <;> rfl

theorem digVal_digitChar (d : Nat) (h : d < 10) : digVal (Nat.digitChar d) = d := by
  interval_cases d <;> rfl

theorem isDig_val (c : Char) (h : isDig c = true) : digVal c < 10 := by
  simp only [isDig, Bool.and_eq_true, decide_eq_true_eq] at h
  simp only [digVal]
  omega

theorem repr_data_lt10 (d : Nat) (h : d < 10) : (Nat.repr d).data = [Nat.digitChar d] := by
  interval_cases d <;> rfl

theorem repr_data_lt60 (d : Nat) (h1 : 10 ≤ d) (h2 : d < 60) :
    (Nat.repr d).data = [Nat.digitChar (d / 10), Nat.digitChar (d % 10)] := by
  interval_cases d <;> rfl

theorem toString_int_ofNat (n : Nat) : toString (n : Int) = Nat.repr n := rfl

theorem pad2_data_lt10 (n : Nat) (h : n < 10) :
    (pad2 (n : Int)).data = ['0', Nat.digitChar n] := by
  have h0 : (0 : Int) ≤ (n : Int) := Int.ofNat_nonneg n
  have h1 : (n : Int) < 10 := by exact_mod_cast h
  rw [pad2, if_pos ⟨h0, h1⟩, toString_int_ofNat, String.data_append, repr_data_lt10 n h]
  rfl

theorem pad2_data_ge10 (n : Nat) (h1 : 10 ≤ n) (h2 : n < 60) :
    (pad2 (n : Int)).data = [Nat.digitChar (n / 10), Nat.digitChar (n % 10)] := by
  have h1' : ¬ ((0 : Int) ≤ (n : Int) ∧ (n : Int) < 10) := by
    push_neg
    intro _
    exact_mod_cast h1
  rw [pad2, if_neg h1', toString_int_ofNat, repr_data_lt60 n h1 h2]

theorem minutes_to_time_data (n : Nat) :
    (minutes_to_time (n : Int)).data =
      (pad2 ((n / 60 : Nat) : Int)).data ++ ':' :: (pad2 ((n % 60 : Nat) : Int)).data := by
  have e1 : (n : Int) / 60 = ((n / 60 : Nat) : Int) := rfl
  have e2 : (n : Int) % 60 = ((n % 60 : Nat) : Int) := rfl
  rw [minutes_to_time, e1, e2, String.data_append, String.data_append]
  simp

theorem parseHM_digits (a b c d : Nat) (ha : a < 10) (hb : b < 10) (hc : c < 10) (hd : d < 10)
    (h23 : 10 * a + b ≤ 23) (h5 : c ≤ 5) :
    parseHM [Nat.digitChar a, Nat.digitChar b, ':', Nat.digitChar c, Nat.digitChar d]
      = some (10 * a + b, 10 * c + d) := by
  simp [parseHM, parseMin, isDig_digitChar a ha, isDig_digitChar b hb,
    isDig_digitChar c hc, isDig_digitChar d hd,
    digVal_digitChar a ha, digVal_digitChar b hb, digVal_digitChar c hc, digVal_digitChar d hd]
  exact ⟨h23, h5⟩

theorem parseHM_minutes_to_time (n : Nat) (h : n < 1440) :
    parseHM (minutes_to_time (n : Int)).data = some (n / 60, n % 60) := by
  have hh : n / 60 < 24 := by omega
  have hm : n % 60 < 60 := by omega
  have z : '0' = Nat.digitChar 0 := rfl
  rw [minutes_to_time_data]
  by_cases h1 : n / 60 < 10 <;> by_cases h2 : n % 60 < 10
  · rw [pad2_data_lt10 _ h1, pad2_data_lt10 _ h2, z]
    simp only [List.cons_append, List.nil_append]
    rw [parseHM_digits 0 (n / 60) 0 (n % 60) (by omega) h1 (by omega) h2 (by omega) (by omega)]
    simp
  · rw [pad2_data_lt10 _ h1, pad2_data_ge10 _ (by omega) hm, z]
    simp only [List.cons_append, List.nil_append]
    rw [parseHM_digits 0 (n / 60) (n % 60 / 10) (n % 60 % 10) (by omega) h1 (by omega)
      (by omega) (by omega) (by omega)]
    have e3 : 10 * (n % 60 / 10) + n % 60 % 10 = n % 60 := by omega
    rw [e3]
    simp
  · rw [pad2_data_ge10 _ (by omega) (by omega), pad2_data_lt10 _ h2, z]
    simp only [List.cons_append, List.nil_append]
    rw [parseHM_digits (n / 60 / 10) (n / 60 % 10) 0 (n % 60) (by omega) (by omega) (by omega)
      h2 (by omega) (by omega)]
    have e3 : 10 * (n / 60 / 10) + n / 60 % 10 = n / 60 := by omega
    rw [e3]
    simp
  · rw [pad2_data_ge10 _ (by omega) (by omega), pad2_data_ge10 _ (by omega) hm]
    simp only [List.cons_append, List.nil_append]
    rw [parseHM_digits (n / 60 / 10) (n / 60 % 10) (n % 60 / 10) (n % 60 % 10) (by omega)
      (by omega) (by omega) (by omega) (by omega) (by omega)]
    have e3 : 10 * (n / 60 / 10) + n / 60 % 10 = n / 60 := by omega
    have e4 : 10 * (n % 60 / 10) + n % 60 % 10 = n % 60 := by omega
    rw [e3, e4]

theorem parseMin_lt (ms : List Char) (m : Nat) (h : parseMin ms = some m) : m < 60 := by
  rw [parseMin.eq_def] at h
  split at h
  · split at h
    · rename_i hg
      simp only [Bool.and_eq_true, decide_eq_true_eq] at hg
      obtain ⟨⟨h1, h2⟩, h3⟩ := hg
      have := isDig_val _ h2
      simp only [Option.some.injEq] at h
      omega
    · exact absurd h (by simp)
  · split at h
    · rename_i hg
      have := isDig_val _ hg
      simp only [Option.some.injEq] at h
      omega
    · exact absurd h (by simp)
  · exact absurd h (by simp)

theorem parseHM_bounds (cs : List Char) (h m : Nat) (hp : parseHM cs = some (h, m)) :
    h ≤ 23 ∧ m < 60 := by
  rw [parseHM.eq_def] at hp
  split at hp
  · split at hp
    · rename_i hg
      simp only [Bool.and_eq_true, decide_eq_true_eq] at hg
      simp only [Option.map_eq_some'] at hp
      obtain ⟨m', hm', he⟩ := hp
      simp only [Prod.mk.injEq] at he
      obtain ⟨rfl, rfl⟩ := he
      exact ⟨hg.2, parseMin_lt _ _ hm'⟩
    · exact absurd hp (by simp)
  · split at hp
    · rename_i hg
      have := isDig_val _ hg
      simp only [Option.map_eq_some'] at hp
      obtain ⟨m', hm', he⟩ := hp
      simp only [Prod.mk.injEq] at he
      obtain ⟨rfl, rfl⟩ := he
      exact ⟨by omega, parseMin_lt _ _ hm'⟩
    · exact absurd hp (by simp)
  · exact absurd hp (by simp)

theorem parse_time_some (s : String) (t : PyTime) (h : parse_time s = some t) :
    parseHM s.data = some (t.hour, t.minute) := by
  rw [parse_time] at h
  split at h
  · rename_i p hp
    simp only [Option.some.injEq] at h
    cases t
    cases h
    exact hp
  · exact absurd h (by simp)

theorem time_to_minutes_lt (s : String) (t : PyTime) (h : parse_time s = some t) :
    time_to_minutes t < 1440 := by
  have := parseHM_bounds _ _ _ (parse_time_some s t h)
  simp only [time_to_minutes]
  omega

theorem entryKey_mkEntry (ct : Int) (t : PyTask) (h0 : 0 ≤ ct) (h1 : ct < 1440) :
    entryKey (mkEntry ct t) = some ct.toNat := by
  obtain ⟨n, rfl⟩ : ∃ n : Nat, ct = (n : Int) := ⟨ct.toNat, (Int.toNat_of_nonneg h0).symm⟩
  have hn : n < 1440 := by exact_mod_cast h1
  simp only [entryKey, mkEntry, parseHM_minutes_to_time n hn, Option.map_some']
  simp only [Int.toNat_ofNat]
  congr 1
  omega

/-! ### Placement machinery -/

/-- Total duration of a list of tasks. -/
def sumDur (l : List PyTask) : Int := (l.map (fun u => u.duration)).sum

@[simp] theorem sumDur_nil : sumDur [] = 0 := rfl

@[simp] theorem sumDur_cons (t : PyTask) (l : List PyTask) :
    sumDur (t :: l) = t.duration + sumDur l := by
  simp [sumDur]

@[simp] theorem sumDur_append (l1 l2 : List PyTask) :
    sumDur (l1 ++ l2) = sumDur l1 + sumDur l2 := by
  simp [sumDur]

theorem sumDur_nonneg (l : List PyTask) (h : ∀ u ∈ l, 0 < u.duration) : 0 ≤ sumDur l := by
  induction l with
  | nil => simp
  | cons u l ih =>
    have h1 := h u (by simp)
    have h2 := ih (fun v hv => h v (by simp [hv]))
    simp only [sumDur_cons]
    omega

theorem placeWhole_inv (t : PyTask) (P : Block → Prop)
    (hP : ∀ b, P b → t.duration ≤ remainingCap b → P (wholePlace b t)) :
    ∀ bs bs2, placeWhole t bs = some bs2 → (∀ b ∈ bs, P b) → ∀ b2 ∈ bs2, P b2 := by
  intro bs
  induction bs with
  | nil => intro bs2 h; simp [placeWhole] at h
  | cons b rest ih =>
    intro bs2 h hall
    rw [placeWhole] at h
    split at h
    · rename_i hfit
      simp only [Option.some.injEq] at h
      subst h
      intro b2 hb2
      rcases List.mem_cons.mp hb2 with rfl | h2
      · exact hP b (hall b (by simp)) hfit
      · exact hall b2 (by simp [h2])
    · simp only [Option.map_eq_some'] at h
      obtain ⟨l, hl, rfl⟩ := h
      intro b2 hb2
      rcases List.mem_cons.mp hb2 with rfl | h2
      · exact hall b2 (by simp)
      · exact ih l hl (fun b hb => hall b (by simp [hb])) b2 h2

theorem placeSplit_inv (t : PyTask) (P : Block → Prop)
    (hP : ∀ b d, 0 < d → P b → 0 < remainingCap b → P (fragPlace b t (min (remainingCap b) d))) :
    ∀ bs d, 0 < d → (∀ b ∈ bs, P b) → ∀ b2 ∈ placeSplit t d bs, P b2 := by
  intro bs
  induction bs with
  | nil => intro d hd hall b2 hb2; simp [placeSplit] at hb2
  | cons b rest ih =>
    intro d hd hall b2 hb2
    rw [placeSplit] at hb2
    split at hb2
    · rename_i hrem
      split at hb2
      · rcases List.mem_cons.mp hb2 with rfl | h2
        · exact hP b d hd (hall b (by simp)) hrem
        · exact hall b2 (by simp [h2])
      · rename_i hcont
        rcases List.mem_cons.mp hb2 with rfl | h2
        · exact hP b d hd (hall b (by simp)) hrem
        · exact ih (d - min (remainingCap b) d) (not_le.mp hcont)
            (fun b3 hb3 => hall b3 (by simp [hb3])) b2 h2
    · rcases List.mem_cons.mp hb2 with rfl | h2
      · exact hall _ (by simp)
      · exact ih d hd (fun b3 hb3 => hall b3 (by simp [hb3])) b2 h2

theorem allocTask_inv (t : PyTask) (P : Block → Prop)
    (hW : ∀ b, P b → t.duration ≤ remainingCap b → P (wholePlace b t))
    (hF : ∀ b d, 0 < d → P b → 0 < remainingCap b → P (fragPlace b t (min (remainingCap b) d)))
    (hd : 0 < t.duration) (bs : List Block) (hall : ∀ b ∈ bs, P b) :
    ∀ b2 ∈ allocTask bs t, P b2 := by
  rw [allocTask]
  split
  · rename_i bs2 hpw
    exact placeWhole_inv t P hW bs bs2 hpw hall
  · exact placeSplit_inv t P hF bs t.duration hd hall

theorem allocScan_inv (P : Block → Prop)
    (hW : ∀ t b, 0 < t.duration → P b → t.duration ≤ remainingCap b → P (wholePlace b t))
    (hF : ∀ t b d, 0 < d → P b → 0 < remainingCap b → P (fragPlace b t (min (remainingCap b) d))) :
    ∀ (ts : List PyTask) (bs : List Block), (∀ t ∈ ts, 0 < t.duration) →
      (∀ b ∈ bs, P b) → ∀ b2 ∈ allocScan ts bs, P b2 := by
  intro ts
  induction ts with
  | nil => intro bs _ hall; simpa [allocScan] using hall
  | cons t rest ih =>
    intro bs hts hall
    rw [allocScan, List.foldl_cons]
    exact ih (allocTask bs t) (fun u hu => hts u (by simp [hu]))
      (allocTask_inv t P (fun b hb hfit => hW t b (hts t (by simp)) hb hfit) (hF t)
        (hts t (by simp)) bs hall)

/-- The placement-invariant part of a block: bounds, kind and capacity. -/
def frame (b : Block) : Int × Int × String × Int := (b.startMin, b.endMin, b.btype, b.available)

@[simp] theorem frame_wholePlace (b : Block) (t : PyTask) : frame (wholePlace b t) = frame b := rfl

@[simp] theorem frame_fragPlace (b : Block) (t : PyTask) (d : Int) :
    frame (fragPlace b t d) = frame b := rfl

theorem placeWhole_frame (t : PyTask) :
    ∀ bs bs2, placeWhole t bs = some bs2 → bs2.map frame = bs.map frame := by
  intro bs
  induction bs with
  | nil => intro bs2 h; simp [placeWhole] at h
  | cons b rest ih =>
    intro bs2 h
    rw [placeWhole] at h
    split at h
    · simp only [Option.some.injEq] at h
      subst h
      simp
    · simp only [Option.map_eq_some'] at h
      obtain ⟨l, hl, rfl⟩ := h
      simp [ih l hl]

theorem placeSplit_frame (t : PyTask) :
    ∀ bs d, (placeSplit t d bs).map frame = bs.map frame := by
  intro bs
  induction bs with
  | nil => intro d; simp [placeSplit]
  | cons b rest ih =>
    intro d
    rw [placeSplit]
    split
    · split
      · simp
      · simp [ih]
    · simp [ih]

theorem allocTask_frame (bs : List Block) (t : PyTask) :
    (allocTask bs t).map frame = bs.map frame := by
  rw [allocTask]
  split
  · rename_i bs2 hpw
    exact placeWhole_frame t bs bs2 hpw
  · exact placeSplit_frame t bs t.duration

theorem allocScan_frame (ts : List PyTask) (bs : List Block) :
    (allocScan ts bs).map frame = bs.map frame := by
  induction ts generalizing bs with
  | nil => simp [allocScan]
  | cons t rest ih =>
    rw [allocScan, List.foldl_cons]
    rw [show List.foldl allocTask (allocTask bs t) rest = allocScan rest (allocTask bs t) from rfl]
    rw [ih (allocTask bs t), allocTask_frame]

/-- Total placed duration carrying a given task id inside one block. -/
def idDur (i : Int) (b : Block) : Int := sumDur (b.tasks.filter (fun u => u.id = i))

/-- Total placed duration carrying a given task id over all blocks. -/
def idDurAll (i : Int) (bs : List Block) : Int := (bs.map (idDur i)).sum

/-- Total remaining capacity over all blocks. -/
def totRem (bs : List Block) : Int := (bs.map remainingCap).sum

@[simp] theorem idDur_wholePlace (i : Int) (b : Block) (t : PyTask) :
    idDur i (wholePlace b t) = idDur i b + (if t.id = i then t.duration else 0) := by
  simp only [idDur, wholePlace, List.filter_append]
  by_cases h : t.id = i <;> simp [h]

@[simp] theorem idDur_fragPlace (i : Int) (b : Block) (t : PyTask) (d : Int) :
    idDur i (fragPlace b t d) = idDur i b + (if t.id = i then d else 0) := by
  simp only [idDur, fragPlace, List.filter_append]
  by_cases h : t.id = i <;> simp [h, mkFrag]

@[simp] theorem remainingCap_wholePlace (b : Block) (t : PyTask) :
    remainingCap (wholePlace b t) = remainingCap b - t.duration := by
  simp [remainingCap, wholePlace]
  ring

@[simp] theorem remainingCap_fragPlace (b : Block) (t : PyTask) (d : Int) :
    remainingCap (fragPlace b t d) = remainingCap b - d := by
  simp [remainingCap, fragPlace]
  ring

theorem idDurAll_eq_zero (i : Int) (bs : List Block)
    (h : ∀ b ∈ bs, ∀ u ∈ b.tasks, u.id ≠ i) : idDurAll i bs = 0 := by
  induction bs with
  | nil => rfl
  | cons b rest ih =>
    have h1 : idDur i b = 0 := by
      have : b.tasks.filter (fun u => u.id = i) = [] := by
        rw [List.filter_eq_nil]
        intro u hu
        simpa using h b (by simp) u hu
      simp [idDur, this]
    simp only [idDurAll, List.map_cons, List.sum_cons] at ih ⊢
    rw [h1, ih (fun b2 hb2 => h b2 (by simp [hb2]))]
    ring

@[simp] theorem idDurAll_nil (i : Int) : idDurAll i [] = 0 := rfl

@[simp] theorem idDurAll_cons (i : Int) (b : Block) (bs : List Block) :
    idDurAll i (b :: bs) = idDur i b + idDurAll i bs := by
  simp [idDurAll]

@[simp] theorem totRem_nil : totRem [] = 0 := rfl

@[simp] theorem totRem_cons (b : Block) (bs : List Block) :
    totRem (b :: bs) = remainingCap b + totRem bs := by
  simp [totRem]

theorem placeWhole_idDurAll (t : PyTask) (i : Int) :
    ∀ bs bs2, placeWhole t bs = some bs2 →
      idDurAll i bs2 = idDurAll i bs + (if t.id = i then t.duration else 0) := by
  intro bs
  induction bs with
  | nil => intro bs2 h; simp [placeWhole] at h
  | cons b rest ih =>
    intro bs2 h
    rw [placeWhole] at h
    split at h
    · simp only [Option.some.injEq] at h
      subst h
      simp
      ring
    · simp only [Option.map_eq_some'] at h
      obtain ⟨l, hl, rfl⟩ := h
      simp only [idDurAll_cons, ih l hl]
      ring

theorem placeWhole_totRem (t : PyTask) :
    ∀ bs bs2, placeWhole t bs = some bs2 → totRem bs2 = totRem bs - t.duration := by
  intro bs
  induction bs with
  | nil => intro bs2 h; simp [placeWhole] at h
  | cons b rest ih =>
    intro bs2 h
    rw [placeWhole] at h
    split at h
    · simp only [Option.some.injEq] at h
      subst h
      simp
      ring
    · simp only [Option.map_eq_some'] at h
      obtain ⟨l, hl, rfl⟩ := h
      simp only [totRem_cons, ih l hl]
      ring

theorem placeSplit_idDurAll_ne (t : PyTask) (i : Int) (hne : t.id ≠ i) :
    ∀ bs d, idDurAll i (placeSplit t d bs) = idDurAll i bs := by
  intro bs
  induction bs with
  | nil => intro d; simp [placeSplit]
  | cons b rest ih =>
    intro d
    rw [placeSplit]
    split
    · split
      · simp [hne]
      · simp [hne, ih]
    · simp [ih]

theorem placeSplit_eq_amount (t : PyTask) :
    ∀ bs d, 0 < d → (∀ b ∈ bs, 0 ≤ remainingCap b) → d ≤ totRem bs →
      idDurAll t.id (placeSplit t d bs) = idDurAll t.id bs + d ∧
      totRem (placeSplit t d bs) = totRem bs - d := by
  intro bs
  induction bs with
  | nil =>
    intro d hd _ hcap
    simp only [totRem_nil] at hcap
    omega
  | cons b rest ih =>
    intro d hd hpos hcap
    have hb0 : 0 ≤ remainingCap b := hpos b (by simp)
    rw [placeSplit]
    split
    · rename_i hrem
      have hmin : min (remainingCap b) d ≤ remainingCap b := min_le_left _ _
      have hmin2 : min (remainingCap b) d ≤ d := min_le_right _ _
      split
      · rename_i hbreak
        have : min (remainingCap b) d = d := by omega
        simp [this]
        exact ⟨by ring, by ring⟩
      · rename_i hcont
        have hlt : d - min (remainingCap b) d > 0 := by omega
        have : min (remainingCap b) d = remainingCap b := by omega
        rw [this] at hlt ⊢
        have hcap2 : d - remainingCap b ≤ totRem rest := by
          simp only [totRem_cons] at hcap
          omega
        obtain ⟨e1, e2⟩ := ih (d - remainingCap b) hlt
          (fun b2 hb2 => hpos b2 (by simp [hb2])) hcap2
        constructor
        · simp only [idDurAll_cons, e1, idDur_fragPlace]
          simp
          ring
        · simp only [totRem_cons, e2, remainingCap_fragPlace]
          ring
    · rename_i hrem
      have hb00 : remainingCap b = 0 := by omega
      have hcap2 : d ≤ totRem rest := by
        simp only [totRem_cons] at hcap
        omega
      obtain ⟨e1, e2⟩ := ih d hd (fun b2 hb2 => hpos b2 (by simp [hb2])) hcap2
      constructor
      · simp only [idDurAll_cons, e1]
        ring
      · simp only [totRem_cons, e2]
        ring

theorem allocTask_idDurAll_ne (bs : List Block) (t : PyTask) (i : Int) (hne : t.id ≠ i) :
    idDurAll i (allocTask bs t) = idDurAll i bs := by
  rw [allocTask]
  split
  · rename_i bs2 hpw
    rw [placeWhole_idDurAll t i bs bs2 hpw, if_neg hne]
    ring
  · exact placeSplit_idDurAll_ne t i hne bs t.duration

theorem allocTask_amount (bs : List Block) (t : PyTask) (hd : 0 < t.duration)
    (hpos : ∀ b ∈ bs, 0 ≤ remainingCap b) (hcap : t.duration ≤ totRem bs) :
    idDurAll t.id (allocTask bs t) = idDurAll t.id bs + t.duration ∧
    totRem (allocTask bs t) = totRem bs - t.duration := by
  rw [allocTask]
  split
  · rename_i bs2 hpw
    exact ⟨by rw [placeWhole_idDurAll t t.id bs bs2 hpw, if_pos rfl],
      placeWhole_totRem t bs bs2 hpw⟩
  · exact placeSplit_eq_amount t bs t.duration hd hpos hcap

theorem allocScan_idDurAll_ne (i : Int) :
    ∀ (ts : List PyTask) (bs : List Block), (i ∉ ts.map (fun t => t.id)) →
      idDurAll i (allocScan ts bs) = idDurAll i bs := by
  intro ts
  induction ts with
  | nil => intro bs _; simp [allocScan]
  | cons t rest ih =>
    intro bs hni
    simp only [List.map_cons, List.mem_cons, not_or] at hni
    rw [allocScan, List.foldl_cons,
      show List.foldl allocTask (allocTask bs t) rest = allocScan rest (allocTask bs t) from rfl,
      ih (allocTask bs t) hni.2, allocTask_idDurAll_ne bs t i (fun he => hni.1 he.symm)]

theorem placeSplit_inv_all (t : PyTask) (P : Block → Prop)
    (hP : ∀ b d, P b → 0 < remainingCap b → P (fragPlace b t (min (remainingCap b) d))) :
    ∀ bs d, (∀ b ∈ bs, P b) → ∀ b2 ∈ placeSplit t d bs, P b2 := by
  intro bs
  induction bs with
  | nil => intro d hall b2 hb2; simp [placeSplit] at hb2
  | cons b rest ih =>
    intro d hall b2 hb2
    rw [placeSplit] at hb2
    split at hb2
    · rename_i hrem
      split at hb2
      · rcases List.mem_cons.mp hb2 with rfl | h2
        · exact hP b d (hall b (by simp)) hrem
        · exact hall b2 (by simp [h2])
      · rcases List.mem_cons.mp hb2 with rfl | h2
        · exact hP b d (hall b (by simp)) hrem
        · exact ih (d - min (remainingCap b) d) (fun b3 hb3 => hall b3 (by simp [hb3])) b2 h2
    · rcases List.mem_cons.mp hb2 with rfl | h2
      · exact hall _ (by simp)
      · exact ih d (fun b3 hb3 => hall b3 (by simp [hb3])) b2 h2

theorem allocTask_inv_all (t : PyTask) (P : Block → Prop)
    (hW : ∀ b, P b → t.duration ≤ remainingCap b → P (wholePlace b t))
    (hF : ∀ b d, P b → 0 < remainingCap b → P (fragPlace b t (min (remainingCap b) d)))
    (bs : List Block) (hall : ∀ b ∈ bs, P b) :
    ∀ b2 ∈ allocTask bs t, P b2 := by
  rw [allocTask]
  split
  · rename_i bs2 hpw
    exact placeWhole_inv t P hW bs bs2 hpw hall
  · exact placeSplit_inv_all t P hF bs t.duration hall

theorem allocScan_inv_all (P : Block → Prop)
    (hW : ∀ t b, P b → t.duration ≤ remainingCap b → P (wholePlace b t))
    (hF : ∀ t b d, P b → 0 < remainingCap b → P (fragPlace b t (min (remainingCap b) d))) :
    ∀ (ts : List PyTask) (bs : List Block),
      (∀ b ∈ bs, P b) → ∀ b2 ∈ allocScan ts bs, P b2 := by
  intro ts
  induction ts with
  | nil => intro bs hall; simpa [allocScan] using hall
  | cons t rest ih =>
    intro bs hall
    rw [allocScan, List.foldl_cons]
    exact ih (allocTask bs t) (allocTask_inv_all t P (hW t) (hF t) bs hall)

theorem allocScan_conserve :
    ∀ (todo : List PyTask) (bs : List Block),
      (∀ t ∈ todo, 0 < t.duration) →
      (todo.map (fun t => t.id)).Nodup →
      (∀ b ∈ bs, 0 ≤ remainingCap b) →
      sumDur todo ≤ totRem bs →
      (∀ b ∈ bs, ∀ u ∈ b.tasks, u.id ∉ todo.map (fun t => t.id)) →
      ∀ t ∈ todo, idDurAll t.id (allocScan todo bs) = t.duration := by
  intro todo
  induction todo with
  | nil => intro bs _ _ _ _ _ t ht; simp at ht
  | cons t0 rest ih =>
    intro bs hdur hnd hpos hcap hnone t ht
    have hd0 : 0 < t0.duration := hdur t0 (by simp)
    have hrest_nonneg : 0 ≤ sumDur rest :=
      sumDur_nonneg rest (fun u hu => hdur u (by simp [hu]))
    have hcap0 : t0.duration ≤ totRem bs := by
      simp only [sumDur_cons] at hcap
      omega
    obtain ⟨hA, hT⟩ := allocTask_amount bs t0 hd0 hpos hcap0
    have hzero : idDurAll t0.id bs = 0 := by
      apply idDurAll_eq_zero
      intro b hb u hu
      have := hnone b hb u hu
      simp only [List.map_cons, List.mem_cons, not_or] at this
      exact this.1
    simp only [List.map_cons, List.nodup_cons] at hnd
    obtain ⟨hnd0, hndr⟩ := hnd
    have hpos2 : ∀ b ∈ allocTask bs t0, 0 ≤ remainingCap b := by
      apply allocTask_inv t0 (fun b => 0 ≤ remainingCap b) ?_ ?_ hd0 bs hpos
      · intro b hb hfit
        rw [remainingCap_wholePlace]
        omega
      · intro b d hd hb hrem
        rw [remainingCap_fragPlace]
        have := min_le_left (remainingCap b) d
        omega
    have hcap2 : sumDur rest ≤ totRem (allocTask bs t0) := by
      rw [hT]
      simp only [sumDur_cons] at hcap
      omega
    have hnone2 : ∀ b ∈ allocTask bs t0, ∀ u ∈ b.tasks,
        u.id ∉ rest.map (fun x => x.id) := by
      apply allocTask_inv t0
        (fun b => ∀ u ∈ b.tasks, u.id ∉ rest.map (fun x => x.id)) ?_ ?_ hd0 bs ?_
      · intro b hb hfit u hu
        have hu' : u ∈ b.tasks ++ [t0] := hu
        rcases List.mem_append.mp hu' with h | h
        · exact hb u h
        · simp only [List.mem_singleton] at h
          subst h
          exact hnd0
      · intro b d hd hb hrem u hu
        have hu' : u ∈ b.tasks ++ [mkFrag t0 (min (remainingCap b) d)] := hu
        rcases List.mem_append.mp hu' with h | h
        · exact hb u h
        · simp only [List.mem_singleton] at h
          subst h
          exact hnd0
      · intro b hb u hu
        have := hnone b hb u hu
        simp only [List.map_cons, List.mem_cons, not_or] at this
        exact this.2
    rw [allocScan, List.foldl_cons,
      show List.foldl allocTask (allocTask bs t0) rest = allocScan rest (allocTask bs t0)
        from rfl]
    rcases List.mem_cons.mp ht with rfl | htr
    · rw [allocScan_idDurAll_ne t.id rest (allocTask bs t) hnd0, hA, hzero]
      ring
    · exact ih (allocTask bs t0) (fun u hu => hdur u (by simp [hu])) hndr hpos2 hcap2
        hnone2 t htr

/-- Well-formedness of a block during placement: the `used` counter equals
the total placed duration, placed durations are positive, `used` never
exceeds a non-negative `available`, and a block with non-positive capacity
holds no task. -/
def BlockInv (b : Block) : Prop :=
  b.used = sumDur b.tasks ∧ (∀ u ∈ b.tasks, 0 < u.duration) ∧
  b.used ≤ max b.available 0 ∧ (b.available ≤ 0 → b.tasks = [])

theorem BlockInv_used_nonneg (b : Block) (h : BlockInv b) : 0 ≤ b.used := by
  obtain ⟨hsum, hpos, _, _⟩ := h
  rw [hsum]
  exact sumDur_nonneg _ hpos

theorem BlockInv_wholePlace (t : PyTask) (b : Block) (ht : 0 < t.duration)
    (hP : BlockInv b) (hfit : t.duration ≤ remainingCap b) : BlockInv (wholePlace b t) := by
  have hu0 : 0 ≤ b.used := BlockInv_used_nonneg b hP
  obtain ⟨hsum, hpos, hmax, hemp⟩ := hP
  rw [remainingCap] at hfit
  have hav : 0 < b.available := by omega
  refine ⟨?_, ?_, ?_, ?_⟩
  · simp [wholePlace, hsum]
  · intro u hu
    rcases List.mem_append.mp hu with h | h
    · exact hpos u h
    · simp only [List.mem_singleton] at h
      subst h
      exact ht
  · show b.used + t.duration ≤ max b.available 0
    have : max b.available 0 = b.available := max_eq_left (by omega)
    omega
  · intro h
    exfalso
    simp only [wholePlace] at h
    omega

theorem BlockInv_fragPlace (t : PyTask) (b : Block) (d : Int) (hd : 0 < d)
    (hP : BlockInv b) (hrem : 0 < remainingCap b) :
    BlockInv (fragPlace b t (min (remainingCap b) d)) := by
  have hu0 : 0 ≤ b.used := BlockInv_used_nonneg b hP
  obtain ⟨hsum, hpos, hmax, hemp⟩ := hP
  rw [remainingCap] at hrem
  have hp1 : 0 < min (remainingCap b) d := lt_min (by rw [remainingCap]; omega) hd
  have hp2 : min (remainingCap b) d ≤ remainingCap b := min_le_left _ _
  rw [remainingCap] at hp1 hp2
  refine ⟨?_, ?_, ?_, ?_⟩
  · simp [fragPlace, hsum, mkFrag]
  · intro u hu
    rcases List.mem_append.mp hu with h | h
    · exact hpos u h
    · simp only [List.mem_singleton] at h
      subst h
      simpa [mkFrag, remainingCap] using hp1
  · show b.used + min (remainingCap b) d ≤ max b.available 0
    rw [remainingCap]
    omega
  · intro h
    exfalso
    simp only [fragPlace] at h
    omega

/-- Full well-formedness used for schedule assembly: block invariant plus
in-range bounds and `available = end - start`. -/
def GoodBlock (b : Block) : Prop :=
  BlockInv b ∧ 0 ≤ b.startMin ∧ b.startMin ≤ 1440 ∧ b.endMin ≤ 1440 ∧
  b.available = b.endMin - b.startMin

theorem GoodBlock_wholePlace (t : PyTask) (b : Block) (hP : GoodBlock b) (ht : 0 < t.duration)
    (hfit : t.duration ≤ remainingCap b) : GoodBlock (wholePlace b t) :=
  ⟨BlockInv_wholePlace t b ht hP.1 hfit, hP.2.1, hP.2.2.1, hP.2.2.2.1, hP.2.2.2.2⟩

theorem GoodBlock_fragPlace (t : PyTask) (b : Block) (d : Int) (hd : 0 < d)
    (hP : GoodBlock b) (hrem : 0 < remainingCap b) :
    GoodBlock (fragPlace b t (min (remainingCap b) d)) :=
  ⟨BlockInv_fragPlace t b d hd hP.1 hrem, hP.2.1, hP.2.2.1, hP.2.2.2.1, hP.2.2.2.2⟩

theorem allocScan_good (ts : List PyTask) (bs : List Block)
    (hdur : ∀ t ∈ ts, 0 < t.duration) (hall : ∀ b ∈ bs, GoodBlock b) :
    ∀ b2 ∈ allocScan ts bs, GoodBlock b2 :=
  allocScan_inv GoodBlock
    (fun t b ht hb hfit => GoodBlock_wholePlace t b hb ht hfit)
    (fun t b d hd hb hrem => GoodBlock_fragPlace t b d hd hb hrem)
    ts bs hdur hall

/-! ### Schedule assembly lemmas -/

/-- Total duration of the entries carrying a given id. -/
def schedIdDur (i : Int) (es : List Entry) : Int :=
  ((es.filter (fun e => e.id = i)).map (fun e => e.duration)).sum

@[simp] theorem schedIdDur_nil (i : Int) : schedIdDur i [] = 0 := rfl

theorem schedIdDur_cons (i : Int) (e : Entry) (es : List Entry) :
    schedIdDur i (e :: es) = (if e.id = i then e.duration else 0) + schedIdDur i es := by
  simp only [schedIdDur, List.filter_cons]
  by_cases h : e.id = i <;> simp [h]

@[simp] theorem schedIdDur_append (i : Int) (l1 l2 : List Entry) :
    schedIdDur i (l1 ++ l2) = schedIdDur i l1 + schedIdDur i l2 := by
  simp [schedIdDur]

theorem schedIdDur_of_zero (i : Int) (es : List Entry) (h : ∀ e ∈ es, e.duration = 0) :
    schedIdDur i es = 0 := by
  induction es with
  | nil => rfl
  | cons e es ih =>
    rw [schedIdDur_cons, ih (fun e2 he2 => h e2 (by simp [he2])), h e (by simp)]
    simp

theorem schedIdDur_fixed (i : Int) (p : Preferences) : schedIdDur i (fixed_schedule p) = 0 := by
  apply schedIdDur_of_zero
  intro e he
  simp only [fixed_schedule, List.mem_cons, List.mem_singleton, List.not_mem_nil] at he
  rcases he with rfl | rfl | rfl | rfl | hf
  · rfl
  · rfl
  · rfl
  · rfl
  · exact absurd hf (by simp)

theorem schedIdDur_blockEntriesAux (i : Int) :
    ∀ (ts : List PyTask) (ct : Int),
      schedIdDur i (blockEntriesAux ct ts) = sumDur (ts.filter (fun u => u.id = i)) := by
  intro ts
  induction ts with
  | nil => intro ct; rfl
  | cons t ts ih =>
    intro ct
    rw [blockEntriesAux, schedIdDur_cons, ih]
    simp only [List.filter_cons]
    by_cases h : t.id = i <;> simp [h, mkEntry]

theorem schedIdDur_blockEntries (i : Int) (b : Block) :
    schedIdDur i (blockEntries b) = idDur i b := by
  rw [blockEntries, schedIdDur_blockEntriesAux]
  rfl

theorem schedIdDur_flatMap (i : Int) :
    ∀ bs : List Block, schedIdDur i (bs.flatMap blockEntries) = idDurAll i bs := by
  intro bs
  induction bs with
  | nil => rfl
  | cons b rest ih =>
    rw [List.flatMap_cons, schedIdDur_append, schedIdDur_blockEntries, ih, idDurAll_cons]

theorem schedIdDur_perm (i : Int) (l1 l2 : List Entry) (h : l1.Perm l2) :
    schedIdDur i l1 = schedIdDur i l2 :=
  ((h.filter _).map _).sum_eq

theorem constructionOrder_mem (bs : List Block) (b : Block) :
    b ∈ constructionOrder bs ↔ b ∈ bs := by
  rcases bs with _ | ⟨a, _ | ⟨c, _ | ⟨d, _ | ⟨e, r⟩⟩⟩⟩ <;> simp [constructionOrder] <;> tauto

theorem constructionOrder_idDurAll (i : Int) (bs : List Block) :
    idDurAll i (constructionOrder bs) = idDurAll i bs := by
  rcases bs with _ | ⟨a, _ | ⟨c, _ | ⟨d, _ | ⟨e, r⟩⟩⟩⟩ <;> simp [constructionOrder] <;> ring

theorem blockEntriesAux_keys :
    ∀ (ts : List PyTask) (ct : Int), 0 ≤ ct → (∀ u ∈ ts, 0 < u.duration) →
      ct + sumDur ts ≤ 1440 →
      ∀ e ∈ blockEntriesAux ct ts, ∃ n : Nat, entryKey e = some n ∧ ct ≤ (n : Int) := by
  intro ts
  induction ts with
  | nil => intro ct _ _ _ e he; simp [blockEntriesAux] at he
  | cons t ts ih =>
    intro ct h0 hpos hb e he
    have hd : 0 < t.duration := hpos t (by simp)
    have hs : 0 ≤ sumDur ts := sumDur_nonneg ts (fun u hu => hpos u (by simp [hu]))
    simp only [sumDur_cons] at hb
    rw [blockEntriesAux] at he
    rcases List.mem_cons.mp he with rfl | he2
    · refine ⟨ct.toNat, entryKey_mkEntry ct t h0 (by omega), ?_⟩
      omega
    · obtain ⟨n, hk, hn⟩ := ih (ct + t.duration) (by omega)
        (fun u hu => hpos u (by simp [hu])) (by omega) e he2
      exact ⟨n, hk, by omega⟩

theorem blockEntriesAux_pairwise :
    ∀ (ts : List PyTask) (ct : Int), 0 ≤ ct → (∀ u ∈ ts, 0 < u.duration) →
      ct + sumDur ts ≤ 1440 →
      (blockEntriesAux ct ts).Pairwise (fun a b => entryKeyD a ≤ entryKeyD b) := by
  intro ts
  induction ts with
  | nil => intro ct _ _ _; simp [blockEntriesAux]
  | cons t ts ih =>
    intro ct h0 hpos hb
    have hd : 0 < t.duration := hpos t (by simp)
    have hs : 0 ≤ sumDur ts := sumDur_nonneg ts (fun u hu => hpos u (by simp [hu]))
    simp only [sumDur_cons] at hb
    rw [blockEntriesAux]
    refine List.Pairwise.cons ?_ (ih (ct + t.duration) (by omega)
      (fun u hu => hpos u (by simp [hu])) (by omega))
    intro e he
    obtain ⟨n, hk, hn⟩ := blockEntriesAux_keys ts (ct + t.duration) (by omega)
      (fun u hu => hpos u (by simp [hu])) (by omega) e he
    rw [entryKeyD, entryKey_mkEntry ct t h0 (by omega), entryKeyD, hk]
    simp only [Option.getD_some]
    omega

theorem GoodBlock_bound (b : Block) (hg : GoodBlock b) :
    b.startMin + sumDur b.tasks ≤ 1440 := by
  obtain ⟨⟨hsum, hpos, hmax, hemp⟩, h0, hs14, he14, hav⟩ := hg
  by_cases hmt : b.tasks = []
  · rw [hmt]
    simp
    omega
  · have hne : ¬ b.available ≤ 0 := fun h => hmt (hemp h)
    rw [← hsum]
    have hm : max b.available 0 = b.available := max_eq_left (by omega)
    omega

theorem blockEntries_keys_good (b : Block) (hg : GoodBlock b) :
    ∀ e ∈ blockEntries b, ∃ n : Nat, entryKey e = some n := by
  intro e he
  obtain ⟨n, hk, _⟩ := blockEntriesAux_keys b.tasks b.startMin hg.2.1
    hg.1.2.1 (GoodBlock_bound b hg) e he
  exact ⟨n, hk⟩

theorem blockEntries_pairwise_good (b : Block) (hg : GoodBlock b) :
    (blockEntries b).Pairwise (fun a c => entryKeyD a ≤ entryKeyD c) :=
  blockEntriesAux_pairwise b.tasks b.startMin hg.2.1 hg.1.2.1 (GoodBlock_bound b hg)

/-! ### Decomposition of allocate_time_slots -/

theorem pLe_trans : ∀ a b c : PyTask, pLe a b → pLe b c → pLe a c := by
  intro a b c
  simp only [pLe, decide_eq_true_eq]
  omega

theorem pLe_total : ∀ a b : PyTask, pLe a b || pLe b a := by
  intro a b
  simp only [pLe, Bool.or_eq_true, decide_eq_true_eq]
  omega

theorem entryLe_trans : ∀ a b c : Entry, entryLe a b → entryLe b c → entryLe a c := by
  intro a b c
  simp only [entryLe, decide_eq_true_eq]
  omega

theorem entryLe_total : ∀ a b : Entry, entryLe a b || entryLe b a := by
  intro a b
  simp only [entryLe, Bool.or_eq_true, decide_eq_true_eq]
  omega

theorem sortIncomplete_eq_some (tasks : List PyTask)
    (h : ∀ t ∈ incompleteTasks tasks, (priority_order t.priority).isSome = true) :
    sortIncomplete tasks = some ((incompleteTasks tasks).mergeSort pLe) := by
  rw [sortIncomplete, if_pos]
  exact List.all_eq_true.mpr h

theorem scan_blocks_good (wake ws we bed : PyTime) :
    ∀ b ∈ scan_blocks (time_to_minutes wake : Int) (time_to_minutes ws : Int)
      (time_to_minutes we : Int) (time_to_minutes bed : Int),
      (time_to_minutes wake < 1440) → (time_to_minutes ws < 1440) →
      (time_to_minutes we < 1440) → (time_to_minutes bed < 1440) → GoodBlock b := by
  intro b hb h1 h2 h3 h4
  have base : ∀ s e : Int, 0 ≤ s → s ≤ 1440 → e ≤ 1440 → ∀ ty, GoodBlock (mkBlock s e ty) := by
    intro s e hs0 hs1 he1 ty
    refine ⟨⟨rfl, by simp [mkBlock], by simp [mkBlock], fun _ => rfl⟩, hs0, hs1, he1, rfl⟩
  simp only [scan_blocks, List.mem_cons, List.not_mem_nil, or_false] at hb
  rcases hb with rfl | rfl | rfl
  · exact base _ _ (by positivity) (by exact_mod_cast h1.le) (by exact_mod_cast h2.le) _
  · exact base _ _ (by positivity) (by exact_mod_cast h3.le) (by exact_mod_cast h4.le) _
  · exact base _ _ (by positivity) (by exact_mod_cast h2.le) (by exact_mod_cast h3.le) _

theorem allocBlocks_good (tasks : List PyTask) (wake ws we bed : PyTime)
    (hw : time_to_minutes wake < 1440) (hs : time_to_minutes ws < 1440)
    (he : time_to_minutes we < 1440) (hb : time_to_minutes bed < 1440)
    (sorted : List PyTask) (hdur : ∀ t ∈ sorted, 0 < t.duration) :
    ∀ b ∈ allocBlocks sorted (time_to_minutes wake : Int) (time_to_minutes ws : Int)
      (time_to_minutes we : Int) (time_to_minutes bed : Int), GoodBlock b := by
  intro b hmem
  rw [allocBlocks, constructionOrder_mem] at hmem
  exact allocScan_good sorted _ hdur
    (fun b2 hb2 => scan_blocks_good wake ws we bed b2 hb2 hw hs he hb) b hmem

theorem allocate_time_slots_eq_some (tasks : List PyTask) (p : Preferences)
    (wake ws we bed : PyTime)
    (hw : parse_time p.wake_up_time = some wake)
    (hs : parse_time p.work_start = some ws)
    (he : parse_time p.work_end = some we)
    (hb : parse_time p.bedtime = some bed)
    (hpr : ∀ t ∈ incompleteTasks tasks, (priority_order t.priority).isSome = true)
    (hdur : ∀ t ∈ tasks, 0 < t.duration) :
    allocate_time_slots tasks p = some
      ((fixed_schedule p ++ (allocBlocks ((incompleteTasks tasks).mergeSort pLe)
          (time_to_minutes wake : Int) (time_to_minutes ws : Int) (time_to_minutes we : Int)
          (time_to_minutes bed : Int)).flatMap blockEntries).mergeSort entryLe,
        fixed_schedule p) := by
  have hsorted_dur : ∀ t ∈ (incompleteTasks tasks).mergeSort pLe, 0 < t.duration := by
    intro t ht
    rw [List.mem_mergeSort] at ht
    exact hdur t (List.mem_of_mem_filter ht)
  have hgood := allocBlocks_good tasks wake ws we bed
    (time_to_minutes_lt _ _ hw) (time_to_minutes_lt _ _ hs)
    (time_to_minutes_lt _ _ he) (time_to_minutes_lt _ _ hb)
    ((incompleteTasks tasks).mergeSort pLe) hsorted_dur
  have hguard : (fixed_schedule p ++ (allocBlocks ((incompleteTasks tasks).mergeSort pLe)
      (time_to_minutes wake : Int) (time_to_minutes ws : Int) (time_to_minutes we : Int)
      (time_to_minutes bed : Int)).flatMap blockEntries).all
        (fun e => (entryKey e).isSome) = true := by
    rw [List.all_eq_true]
    intro e hmem
    rcases List.mem_append.mp hmem with hf | ht
    · simp only [fixed_schedule, List.mem_cons, List.not_mem_nil, or_false] at hf
      rcases hf with rfl | rfl | rfl | rfl
      · simp [entryKey, parse_time_some _ _ hw]
      · simp [entryKey, parse_time_some _ _ hs]
      · simp [entryKey, parse_time_some _ _ he]
      · simp [entryKey, parse_time_some _ _ hb]
    · obtain ⟨b, hbmem, hebm⟩ := List.mem_flatMap.mp ht
      obtain ⟨n, hk⟩ := blockEntries_keys_good b (hgood b hbmem) e hebm
      simp [hk]
  rw [allocate_time_slots, hw, hs, he, hb, sortIncomplete_eq_some tasks hpr]
  simp only [hguard, if_true]

theorem allocate_time_slots_some_inv (tasks : List PyTask) (p : Preferences)
    (sched fx : List Entry) (h : allocate_time_slots tasks p = some (sched, fx)) :
    ∃ wake ws we bed sorted,
      parse_time p.wake_up_time = some wake ∧ parse_time p.work_start = some ws ∧
      parse_time p.work_end = some we ∧ parse_time p.bedtime = some bed ∧
      sortIncomplete tasks = some sorted ∧
      fx = fixed_schedule p ∧
      sched = (fixed_schedule p ++ (allocBlocks sorted (time_to_minutes wake : Int)
        (time_to_minutes ws : Int) (time_to_minutes we : Int)
        (time_to_minutes bed : Int)).flatMap blockEntries).mergeSort entryLe := by
  rw [allocate_time_slots] at h
  split at h
  · rename_i wake ws we bed hw hs he hb
    split at h
    · rename_i sorted hsort
      dsimp only at h
      split at h
      · simp only [Option.some.injEq, Prod.mk.injEq] at h
        exact ⟨wake, ws, we, bed, sorted, hw, hs, he, hb, hsort, h.2.symm, h.1.symm⟩
      · exact absurd h (by simp)
    · exact absurd h (by simp)
  · exact absurd h (by simp)

/-! ### First-fit and splitting characterizations -/

theorem placeWhole_none (t : PyTask) :
    ∀ bs, (∀ b ∈ bs, remainingCap b < t.duration) → placeWhole t bs = none := by
  intro bs
  induction bs with
  | nil => intro _; rfl
  | cons b rest ih =>
    intro h
    rw [placeWhole, if_neg (not_le.mpr (h b (by simp))), ih (fun b2 hb2 => h b2 (by simp [hb2]))]
    rfl

theorem placeWhole_first_fit (t : PyTask) :
    ∀ (bs : List Block) (i : Nat) (hi : i < bs.length),
      (∀ j, (hj : j < i) → remainingCap (bs.get ⟨j, Nat.lt_trans hj hi⟩) < t.duration) →
      t.duration ≤ remainingCap (bs.get ⟨i, hi⟩) →
      placeWhole t bs = some (bs.set i (wholePlace (bs.get ⟨i, hi⟩) t)) := by
  intro bs
  induction bs with
  | nil => intro i hi; simp at hi
  | cons b rest ih =>
    intro i hi hlt hfit
    cases i with
    | zero =>
      have hfit2 : remainingCap b ≥ t.duration := hfit
      rw [placeWhole, if_pos hfit2]
      rfl
    | succ i2 =>
      have hb : remainingCap b < t.duration := hlt 0 (Nat.succ_pos i2)
      rw [placeWhole, if_neg (not_le.mpr hb),
        ih i2 (Nat.lt_of_succ_lt_succ hi) (fun j hj => hlt (j + 1) (Nat.succ_lt_succ hj)) hfit]
      rfl

theorem allocTask_first_fit (t : PyTask) (bs : List Block) (i : Nat) (hi : i < bs.length)
    (hlt : ∀ j, (hj : j < i) → remainingCap (bs.get ⟨j, Nat.lt_trans hj hi⟩) < t.duration)
    (hfit : t.duration ≤ remainingCap (bs.get ⟨i, hi⟩)) :
    allocTask bs t = bs.set i (wholePlace (bs.get ⟨i, hi⟩) t) := by
  rw [allocTask, placeWhole_first_fit t bs i hi hlt hfit]

theorem allocTask_no_fit (t : PyTask) (bs : List Block)
    (h : ∀ b ∈ bs, remainingCap b < t.duration) :
    allocTask bs t = placeSplit t t.duration bs := by
  rw [allocTask, placeWhole_none t bs h]

theorem placeSplit_skip (t : PyTask) (d : Int) (b : Block) (bs : List Block)
    (h : remainingCap b ≤ 0) : placeSplit t d (b :: bs) = b :: placeSplit t d bs := by
  rw [placeSplit, if_neg (not_lt.mpr h)]

theorem placeSplit_break (t : PyTask) (d : Int) (b : Block) (bs : List Block)
    (h : 0 < remainingCap b) (hle : d ≤ remainingCap b) :
    placeSplit t d (b :: bs) = fragPlace b t (min (remainingCap b) d) :: bs := by
  have hc : remainingCap b > 0 := h
  have hmin : min (remainingCap b) d = d := min_eq_right hle
  rw [placeSplit, if_pos hc, if_pos (by omega)]

theorem placeSplit_cont (t : PyTask) (d : Int) (b : Block) (bs : List Block)
    (h : 0 < remainingCap b) (hlt : remainingCap b < d) :
    placeSplit t d (b :: bs) =
      fragPlace b t (remainingCap b) :: placeSplit t (d - remainingCap b) bs := by
  have hc : remainingCap b > 0 := h
  have hmin : min (remainingCap b) d = remainingCap b := min_eq_left (le_of_lt hlt)
  rw [placeSplit, if_pos hc, if_neg (by omega), hmin]

/-- Total of the `used` counters over all blocks. -/
def totUsed (bs : List Block) : Int := (bs.map (fun b => b.used)).sum

/-- Total strictly positive remaining capacity over all blocks. -/
def sumPosRem (bs : List Block) : Int := (bs.map (fun b => max (remainingCap b) 0)).sum

@[simp] theorem totUsed_nil : totUsed [] = 0 := rfl

@[simp] theorem totUsed_cons (b : Block) (bs : List Block) :
    totUsed (b :: bs) = b.used + totUsed bs := by simp [totUsed]

@[simp] theorem sumPosRem_nil : sumPosRem [] = 0 := rfl

@[simp] theorem sumPosRem_cons (b : Block) (bs : List Block) :
    sumPosRem (b :: bs) = max (remainingCap b) 0 + sumPosRem bs := by simp [sumPosRem]

theorem sumPosRem_nonneg (bs : List Block) : 0 ≤ sumPosRem bs := by
  induction bs with
  | nil => simp
  | cons b rest ih =>
    have := le_max_right (remainingCap b) 0
    simp only [sumPosRem_cons]
    omega

theorem placeSplit_totUsed (t : PyTask) :
    ∀ (bs : List Block) (d : Int), 0 ≤ d →
      totUsed (placeSplit t d bs) = totUsed bs + min d (sumPosRem bs) := by
  intro bs
  induction bs with
  | nil =>
    intro d hd
    simp [placeSplit]
    omega
  | cons b rest ih =>
    intro d hd
    have hpr := sumPosRem_nonneg rest
    by_cases hc : 0 < remainingCap b
    · by_cases hbr : d ≤ remainingCap b
      · rw [placeSplit_break t d b rest hc hbr]
        have hmin : min (remainingCap b) d = d := min_eq_right hbr
        simp only [totUsed_cons, fragPlace, sumPosRem_cons, hmin]
        have : max (remainingCap b) 0 = remainingCap b := max_eq_left (by omega)
        omega
      · rw [placeSplit_cont t d b rest hc (by omega)]
        simp only [totUsed_cons, fragPlace, sumPosRem_cons,
          ih (d - remainingCap b) (by omega)]
        have : max (remainingCap b) 0 = remainingCap b := max_eq_left (by omega)
        omega
    · rw [placeSplit_skip t d b rest (by omega)]
      simp only [totUsed_cons, sumPosRem_cons, ih d hd]
      have : max (remainingCap b) 0 = 0 := max_eq_right (by omega)
      omega

theorem allocTask_totUsed_no_fit (t : PyTask) (bs : List Block)
    (h : ∀ b ∈ bs, remainingCap b < t.duration) (hd : 0 ≤ t.duration) :
    totUsed (allocTask bs t) = totUsed bs + min t.duration (sumPosRem bs) := by
  rw [allocTask_no_fit t bs h, placeSplit_totUsed t bs t.duration hd]

theorem allocTask_split_three (b0 b1 b2 : Block) (t : PyTask)
    (h0 : remainingCap b0 < t.duration) (h1 : remainingCap b1 < t.duration)
    (h2 : remainingCap b2 < t.duration) (hd : 0 < t.duration) :
    allocTask [b0, b1, b2] t =
      [(if 0 < remainingCap b0 then fragPlace b0 t (min (remainingCap b0) t.duration) else b0),
       (let o1 := t.duration -
          (if 0 < remainingCap b0 then min (remainingCap b0) t.duration else 0)
        if 0 < remainingCap b1 ∧ 0 < o1 then fragPlace b1 t (min (remainingCap b1) o1) else b1),
       (let o1 := t.duration -
          (if 0 < remainingCap b0 then min (remainingCap b0) t.duration else 0)
        let o2 := o1 - (if 0 < remainingCap b1 ∧ 0 < o1 then min (remainingCap b1) o1 else 0)
        if 0 < remainingCap b2 ∧ 0 < o2 then fragPlace b2 t (min (remainingCap b2) o2) else b2)] := by
  have hsplit : allocTask [b0, b1, b2] t = placeSplit t t.duration [b0, b1, b2] := by
    apply allocTask_no_fit
    intro b hb
    simp only [List.mem_cons, List.not_mem_nil, or_false] at hb
    rcases hb with rfl | rfl | rfl <;> assumption
  rw [hsplit]
  by_cases c0 : 0 < remainingCap b0
  · have e0 : min (remainingCap b0) t.duration = remainingCap b0 := min_eq_left (le_of_lt h0)
    rw [placeSplit_cont t t.duration b0 _ c0 h0]
    have ho1 : 0 < t.duration - remainingCap b0 := by omega
    simp only [if_pos c0, e0]
    by_cases c1 : 0 < remainingCap b1
    · by_cases cbr : t.duration - remainingCap b0 ≤ remainingCap b1
      · rw [placeSplit_break t _ b1 _ c1 cbr]
        have em : min (remainingCap b1) (t.duration - remainingCap b0) =
            t.duration - remainingCap b0 := min_eq_right cbr
        simp only [if_pos (And.intro c1 ho1), em]
        have : t.duration - remainingCap b0 - (t.duration - remainingCap b0) = 0 := by ring
        simp [this]
      · rw [placeSplit_cont t _ b1 _ c1 (by omega)]
        have em : min (remainingCap b1) (t.duration - remainingCap b0) =
            remainingCap b1 := min_eq_left (by omega)
        have ho2 : 0 < t.duration - remainingCap b0 - remainingCap b1 := by omega
        simp only [if_pos (And.intro c1 ho1), em]
        by_cases c2 : 0 < remainingCap b2
        · by_cases cbr2 : t.duration - remainingCap b0 - remainingCap b1 ≤ remainingCap b2
          · rw [placeSplit_break t _ b2 _ c2 cbr2]
            simp [if_pos (And.intro c2 ho2)]
            rw [if_pos (And.intro c2 (by omega))]
          · rw [placeSplit_cont t _ b2 _ c2 (by omega)]
            have em2 : min (remainingCap b2) (t.duration - remainingCap b0 - remainingCap b1) =
                remainingCap b2 := min_eq_left (by omega)
            simp [if_pos (And.intro c2 ho2), em2, placeSplit]
            rw [if_pos (And.intro c2 (by omega))]
        · rw [placeSplit_skip t _ b2 _ (by omega)]
          simp [c2, placeSplit]
    · rw [placeSplit_skip t _ b1 _ (by omega)]
      simp only [if_neg (fun hc : _ ∧ _ => c1 hc.1), sub_zero]
      by_cases c2 : 0 < remainingCap b2
      · by_cases cbr2 : t.duration - remainingCap b0 ≤ remainingCap b2
        · rw [placeSplit_break t _ b2 _ c2 cbr2]
          simp [if_pos (And.intro c2 ho1)]
          rw [if_pos (And.intro c2 (by omega))]
        · rw [placeSplit_cont t _ b2 _ c2 (by omega)]
          have em2 : min (remainingCap b2) (t.duration - remainingCap b0) =
              remainingCap b2 := min_eq_left (by omega)
          simp [if_pos (And.intro c2 ho1), em2, placeSplit]
          rw [if_pos (And.intro c2 (by omega))]
      · rw [placeSplit_skip t _ b2 _ (by omega)]
        simp [c2, placeSplit]
  · rw [placeSplit_skip t t.duration b0 _ (by omega)]
    simp only [if_neg c0, sub_zero]
    by_cases c1 : 0 < remainingCap b1
    · rw [placeSplit_cont t _ b1 _ c1 h1]
      have em : min (remainingCap b1) t.duration = remainingCap b1 := min_eq_left (le_of_lt h1)
      have ho2 : 0 < t.duration - remainingCap b1 := by omega
      simp only [if_pos (And.intro c1 hd), em]
      by_cases c2 : 0 < remainingCap b2
      · by_cases cbr2 : t.duration - remainingCap b1 ≤ remainingCap b2
        · rw [placeSplit_break t _ b2 _ c2 cbr2]
          simp [if_pos (And.intro c2 ho2)]
          rw [if_pos (And.intro c2 (by omega))]
        · rw [placeSplit_cont t _ b2 _ c2 (by omega)]
          have em2 : min (remainingCap b2) (t.duration - remainingCap b1) =
              remainingCap b2 := min_eq_left (by omega)
          simp [if_pos (And.intro c2 ho2), em2, placeSplit]
          rw [if_pos (And.intro c2 (by omega))]
      · rw [placeSplit_skip t _ b2 _ (by omega)]
        simp [c2, placeSplit]
    · rw [placeSplit_skip t _ b1 _ (by omega)]
      simp only [if_neg (fun hc : _ ∧ _ => c1 hc.1), sub_zero]
      by_cases c2 : 0 < remainingCap b2
      · rw [placeSplit_cont t _ b2 _ c2 h2]
        have em2 : min (remainingCap b2) t.duration = remainingCap b2 :=
          min_eq_left (le_of_lt h2)
        simp [if_pos (And.intro c2 hd), em2, placeSplit]
      · rw [placeSplit_skip t _ b2 _ (by omega)]
        simp [c2, placeSplit]

/-! ### Claim theorems -/

/-- C1: Whole-task greedy placement: the candidate scan order is the fixed
[morning, evening, work]; for a task being processed, the first block (in
that order) whose remaining capacity `available - used` is at least the
task's full duration receives the whole task — its `used` counter grows by
the duration and the task is appended to its list — and every other block,
in particular every later candidate, is left unchanged. -/
theorem spec_C1 :
    (∀ wakeMin wsMin weMin bedMin : Int,
      (scan_blocks wakeMin wsMin weMin bedMin).map Block.btype =
        ["morning", "evening", "work"]) ∧
    (∀ (bs : List Block) (t : PyTask) (i : Nat) (hi : i < bs.length),
      (∀ j, (hj : j < i) → remainingCap (bs.get ⟨j, Nat.lt_trans hj hi⟩) < t.duration) →
      t.duration ≤ remainingCap (bs.get ⟨i, hi⟩) →
      allocTask bs t = bs.set i (wholePlace (bs.get ⟨i, hi⟩) t)) := by
  constructor
  · intro _ _ _ _
    rfl
  · intro bs t i hi hlt hfit
    exact allocTask_first_fit t bs i hi hlt hfit

theorem spec_C1_witness :
    allocTask [mkBlock 0 10 "morning", mkBlock 0 100 "evening"]
        ⟨1, "T", "High", 50, false⟩ =
      [mkBlock 0 10 "morning", mkBlock 0 100 "evening"].set 1
        (wholePlace ([mkBlock 0 10 "morning", mkBlock 0 100 "evening"].get ⟨1, by decide⟩)
          ⟨1, "T", "High", 50, false⟩) :=
  spec_C1.2 _ _ 1 (by decide)
    (fun j hj => by
      have hj0 : j = 0 := by omega
      subst hj0
      have e : ([mkBlock 0 10 "morning", mkBlock 0 100 "evening"] : List Block).get
          ⟨0, Nat.lt_trans hj (by decide)⟩ = mkBlock 0 10 "morning" := rfl
      rw [e]
      decide)
    (by decide)

/-- C2: Splitting fallback: when no block fits the task whole, the same
scan order is re-walked with the outstanding duration; every fragment is a
copy of the task with duration `min(remaining, outstanding)` and
description `original ++ " (Part 1)"` (the same literal suffix for every
fragment); a block only receives a fragment while its remaining capacity
is strictly positive and some duration is still outstanding, and the total
`used` over all blocks grows by exactly `min(duration, total positive
remaining)`, so any overhang is dropped silently with no error and no
output entry. -/
theorem spec_C2 :
    (∀ (bs : List Block) (t : PyTask), (∀ b ∈ bs, remainingCap b < t.duration) →
      allocTask bs t = placeSplit t t.duration bs) ∧
    (∀ (t : PyTask) (d : Int), (mkFrag t d).description = t.description ++ " (Part 1)" ∧
      (mkFrag t d).id = t.id ∧ (mkFrag t d).duration = d) ∧
    (∀ (bs : List Block) (t : PyTask), (∀ b ∈ bs, remainingCap b < t.duration) →
      0 ≤ t.duration →
      totUsed (allocTask bs t) = totUsed bs + min t.duration (sumPosRem bs)) ∧
    (∀ (b0 b1 b2 : Block) (t : PyTask),
      remainingCap b0 < t.duration → remainingCap b1 < t.duration →
      remainingCap b2 < t.duration → 0 < t.duration →
      allocTask [b0, b1, b2] t =
        [(if 0 < remainingCap b0 then fragPlace b0 t (min (remainingCap b0) t.duration)
          else b0),
         (let o1 := t.duration -
            (if 0 < remainingCap b0 then min (remainingCap b0) t.duration else 0)
          if 0 < remainingCap b1 ∧ 0 < o1 then fragPlace b1 t (min (remainingCap b1) o1)
          else b1),
         (let o1 := t.duration -
            (if 0 < remainingCap b0 then min (remainingCap b0) t.duration else 0)
          let o2 := o1 - (if 0 < remainingCap b1 ∧ 0 < o1 then min (remainingCap b1) o1 else 0)
          if 0 < remainingCap b2 ∧ 0 < o2 then fragPlace b2 t (min (remainingCap b2) o2)
          else b2)]) :=
  ⟨fun bs t h => allocTask_no_fit t bs h,
   fun _ _ => ⟨rfl, rfl, rfl⟩,
   fun bs t h hd => allocTask_totUsed_no_fit t bs h hd,
   fun b0 b1 b2 t h0 h1 h2 hd => allocTask_split_three b0 b1 b2 t h0 h1 h2 hd⟩

theorem spec_C2_witness :
    allocTask [mkBlock 0 10 "morning", mkBlock 5 0 "evening", mkBlock 0 20 "work"]
        ⟨1, "T", "High", 100, false⟩ =
      [(if 0 < remainingCap (mkBlock 0 10 "morning") then
          fragPlace (mkBlock 0 10 "morning") ⟨1, "T", "High", 100, false⟩
            (min (remainingCap (mkBlock 0 10 "morning")) 100)
        else mkBlock 0 10 "morning"),
       (let o1 := 100 -
          (if 0 < remainingCap (mkBlock 0 10 "morning") then
            min (remainingCap (mkBlock 0 10 "morning")) 100 else 0)
        if 0 < remainingCap (mkBlock 5 0 "evening") ∧ 0 < o1 then
          fragPlace (mkBlock 5 0 "evening") ⟨1, "T", "High", 100, false⟩
            (min (remainingCap (mkBlock 5 0 "evening")) o1)
        else mkBlock 5 0 "evening"),
       (let o1 := 100 -
          (if 0 < remainingCap (mkBlock 0 10 "morning") then
            min (remainingCap (mkBlock 0 10 "morning")) 100 else 0)
        let o2 := o1 - (if 0 < remainingCap (mkBlock 5 0 "evening") ∧ 0 < o1 then
          min (remainingCap (mkBlock 5 0 "evening")) o1 else 0)
        if 0 < remainingCap (mkBlock 0 20 "work") ∧ 0 < o2 then
          fragPlace (mkBlock 0 20 "work") ⟨1, "T", "High", 100, false⟩
            (min (remainingCap (mkBlock 0 20 "work")) o2)
        else mkBlock 0 20 "work")] :=
  spec_C2.2.2.2 _ _ _ _ (by decide) (by decide) (by decide) (by decide)

/-- C3: Capacity bound invariant: after placement finishes (over any task
list fed to the allocation loop and any block bounds), every block's
`used` counter equals the sum of the durations placed into it, and for
every block with non-negative `available` that sum is at most
`available`. -/
theorem spec_C3 (sorted_tasks : List PyTask) (wakeMin wsMin weMin bedMin : Int) :
    ∀ b ∈ allocBlocks sorted_tasks wakeMin wsMin weMin bedMin,
      b.used = sumDur b.tasks ∧ (0 ≤ b.available → sumDur b.tasks ≤ b.available) := by
  intro b hmem
  rw [allocBlocks, constructionOrder_mem] at hmem
  have key : ∀ b2 ∈ allocScan sorted_tasks
      (scan_blocks wakeMin wsMin weMin bedMin),
      b2.used = sumDur b2.tasks ∧ (0 ≤ b2.available → b2.used ≤ b2.available) := by
    apply allocScan_inv_all
      (fun b2 => b2.used = sumDur b2.tasks ∧ (0 ≤ b2.available → b2.used ≤ b2.available))
    · intro t b2 hP hfit
      obtain ⟨hsum, hcap⟩ := hP
      rw [remainingCap] at hfit
      constructor
      · simp [wholePlace, hsum]
      · intro hav
        show b2.used + t.duration ≤ b2.available
        omega
    · intro t b2 d hP hrem
      obtain ⟨hsum, hcap⟩ := hP
      rw [remainingCap] at hrem
      have hle : min (remainingCap b2) d ≤ remainingCap b2 := min_le_left _ _
      rw [remainingCap] at hle
      constructor
      · simp [fragPlace, hsum, mkFrag]
      · intro hav
        show b2.used + min (remainingCap b2) d ≤ b2.available
        rw [remainingCap]
        omega
    · intro b2 hb2
      simp only [scan_blocks, List.mem_cons, List.not_mem_nil, or_false] at hb2
      rcases hb2 with rfl | rfl | rfl <;> exact ⟨rfl, fun h => h⟩
  obtain ⟨hsum, hcap⟩ := key b hmem
  exact ⟨hsum, fun hav => hsum ▸ hcap hav⟩

theorem spec_C3_witness :
    (Block.mk 420 600 "morning" 180 60 [⟨1, "A", "High", 60, false⟩]).used =
        sumDur (Block.mk 420 600 "morning" 180 60 [⟨1, "A", "High", 60, false⟩]).tasks ∧
      (0 ≤ (Block.mk 420 600 "morning" 180 60 [⟨1, "A", "High", 60, false⟩]).available →
        sumDur (Block.mk 420 600 "morning" 180 60 [⟨1, "A", "High", 60, false⟩]).tasks ≤
          (Block.mk 420 600 "morning" 180 60 [⟨1, "A", "High", 60, false⟩]).available) :=
  spec_C3 [⟨1, "A", "High", 60, false⟩] 420 600 1020 1380 _ (by decide)

/-- C7: `calculate_remaining_time` computes the remaining minutes by the
long form `(bedtime - wake_up) - ((work_start - wake_up) + (work_end -
work_start))`, which for every four integers equals the simplified
`bedtime - work_end`; on the preferences 07:00 / 10:00 / 17:00 / 23:00 the
formatted output is "06:00". -/
theorem spec_C7 :
    (∀ wakeMin wsMin weMin bedMin : Int,
      remaining_minutes wakeMin wsMin weMin bedMin =
        (bedMin - wakeMin) - ((wsMin - wakeMin) + (weMin - wsMin)) ∧
      remaining_minutes wakeMin wsMin weMin bedMin = bedMin - weMin) ∧
    calculate_remaining_time ⟨"07:00", "10:00", "17:00", "23:00"⟩ = some "06:00" := by
  refine ⟨fun a b c d => ⟨?_, ?_⟩, ?_⟩
  · simp only [remaining_minutes]
    ring
  · simp only [remaining_minutes]
    ring
  · rfl

/-- C10: the sort-key lookup makes valid priorities an implicit
precondition: when every incomplete task's priority is one of Critical,
High, Medium, Low, the sorting step succeeds (returning the stable sort of
the incomplete tasks), while a single incomplete task with any other
priority string makes the sorting step raise `KeyError` (modelled as
`none`), so `allocate_time_slots` raises for every preference record and
produces no schedule. -/
theorem spec_C10 (tasks : List PyTask) :
    ((∀ t ∈ incompleteTasks tasks, (priority_order t.priority).isSome = true) →
      sortIncomplete tasks = some ((incompleteTasks tasks).mergeSort pLe)) ∧
    ((∃ t ∈ incompleteTasks tasks, priority_order t.priority = none) →
      sortIncomplete tasks = none ∧
      ∀ p : Preferences, allocate_time_slots tasks p = none) := by
  constructor
  · exact sortIncomplete_eq_some tasks
  · intro hex
    obtain ⟨t, ht, hnone⟩ := hex
    have hs : sortIncomplete tasks = none := by
      rw [sortIncomplete, if_neg]
      intro hall
      rw [List.all_eq_true] at hall
      have := hall t ht
      rw [hnone] at this
      simp at this
    refine ⟨hs, fun p => ?_⟩
    rw [allocate_time_slots]
    split
    · rw [hs]
    · rfl

theorem spec_C10_witness :
    sortIncomplete [⟨1, "A", "Urgent", 30, false⟩] = none ∧
    allocate_time_slots [⟨1, "A", "Urgent", 30, false⟩]
      ⟨"07:00", "10:00", "17:00", "23:00"⟩ = none :=
  ⟨((spec_C10 [⟨1, "A", "Urgent", 30, false⟩]).2
      ⟨⟨1, "A", "Urgent", 30, false⟩, by decide, by decide⟩).1,
   ((spec_C10 [⟨1, "A", "Urgent", 30, false⟩]).2
      ⟨⟨1, "A", "Urgent", 30, false⟩, by decide, by decide⟩).2 _⟩

/-! ### C9: the acceptance language of parse_time -/

/-- The spec's acceptance condition for `parseClockTime`: a strict
zero-padded 24-hour string — exactly two digit characters forming an hour
at most 23, a colon, and exactly two digit characters whose tens digit is
at most 5. -/
def strict_hhmm (s : String) : Bool :=
  match s.data with
  | [h1, h2, ':', m1, m2] =>
    isDig h1 && isDig h2 && decide (10 * digVal h1 + digVal h2 ≤ 23) &&
      isDig m1 && isDig m2 && decide (digVal m1 ≤ 5)
  | _ => false

/-- The amended acceptance condition: the hour may be written with one or
two digits (value at most 23) and the minute with one or two digits (a
two-digit minute has tens digit at most 5); zero padding is not
required. -/
def lenientChars : List Char → Bool
  | [h1, h2, ':', m1, m2] =>
    isDig h1 && isDig h2 && decide (10 * digVal h1 + digVal h2 ≤ 23) &&
      isDig m1 && isDig m2 && decide (digVal m1 ≤ 5)
  | [h1, h2, ':', m1] =>
    isDig h1 && isDig h2 && decide (10 * digVal h1 + digVal h2 ≤ 23) && isDig m1
  | [h1, ':', m1, m2] => isDig h1 && isDig m1 && isDig m2 && decide (digVal m1 ≤ 5)
  | [h1, ':', m1] => isDig h1 && isDig m1
  | _ => false

def lenient_hhmm (s : String) : Bool := lenientChars s.data

theorem parse_time_isSome (s : String) :
    (parse_time s).isSome = (parseHM s.data).isSome := by
  rw [parse_time]
  rcases h : parseHM s.data with _ | ⟨h1, m1⟩ <;> simp

theorem parseMin_isSome (ms : List Char) :
    (parseMin ms).isSome =
      (match ms with
       | [m1, m2] => isDig m1 && isDig m2 && decide (digVal m1 ≤ 5)
       | [m1] => isDig m1
       | _ => false) := by
  rcases ms with _ | ⟨m1, _ | ⟨m2, _ | ⟨m3, r⟩⟩⟩
  · rfl
  · rw [parseMin]
    rcases h : isDig m1 <;> simp [h]
  · rw [parseMin]
    rcases h : (isDig m1 && isDig m2 && decide (digVal m1 ≤ 5)) <;> simp [h]
  · rfl

theorem parseMin_nil : parseMin [] = none := rfl

theorem parseMin_big (m1 m2 m3 : Char) (r : List Char) :
    parseMin (m1 :: m2 :: m3 :: r) = none := rfl

theorem parseMin_isSome_one (m1 : Char) : (parseMin [m1]).isSome = isDig m1 := by
  rw [parseMin]
  rcases h : isDig m1 <;> simp [h]

theorem parseMin_isSome_two (m1 m2 : Char) :
    (parseMin [m1, m2]).isSome = (isDig m1 && isDig m2 && decide (digVal m1 ≤ 5)) := by
  rw [parseMin]
  rcases h : (isDig m1 && isDig m2 && decide (digVal m1 ≤ 5)) <;> simp [h]

theorem parseHM_isSome_eq (cs : List Char) : (parseHM cs).isSome = lenientChars cs := by
  have hcol : isDig ':' = false := rfl
  rw [parseHM.eq_def]
  split
  · rename_i c1 c2 ms
    rw [lenientChars.eq_def]
    rcases ms with _ | ⟨m1, _ | ⟨m2, _ | ⟨m3, r⟩⟩⟩
    · simp only [parseMin_nil, Option.map_none', ite_self, Option.isSome_none]
      all_goals split <;>
        first
          | (simp_all [hcol]; done)
          | (rename_i heq
             simp only [List.cons.injEq, and_true] at heq
             rw [← heq.2.2.2, hcol] <;> simp)
          | (rename_i heq
             simp only [List.cons.injEq, and_true] at heq
             rw [← heq.2.2, hcol] <;> simp)
    · split <;>
        first
          | simp_all [parseMin_isSome_one, hcol, Bool.and_assoc]
          | (rename_i hno; exact absurd rfl (hno c1 c2 m1))
    · split <;>
        first
          | simp_all [parseMin_isSome_two, hcol, Bool.and_assoc]
          | (rename_i hno; exact absurd rfl (hno c1 c2 ':' m1 m2))
    · split <;> simp_all [parseMin_big]
  · rename_i c1 ms hnm
    rw [lenientChars.eq_def]
    rcases ms with _ | ⟨m1, _ | ⟨m2, _ | ⟨m3, r⟩⟩⟩
    · simp only [parseMin_nil, Option.map_none', ite_self, Option.isSome_none]
      all_goals split <;>
        first
          | (simp_all [hcol]; done)
          | (rename_i heq
             simp only [List.cons.injEq, and_true] at heq
             rw [← heq.2.2.2, hcol] <;> simp)
          | (rename_i heq
             simp only [List.cons.injEq, and_true] at heq
             rw [← heq.2.2, hcol] <;> simp)
    · split <;>
        first
          | simp_all [parseMin_isSome_one, hcol, Bool.and_assoc]
          | (rename_i hno; exact absurd rfl (hno c1 m1))
    · split <;>
        first
          | simp_all [parseMin_isSome_two, hcol, Bool.and_assoc]
          | (exact absurd rfl (hnm _))
    · split <;>
        first
          | simp_all [parseMin_big]
          | (exact absurd rfl (hnm _))
  · rename_i hno1 hno2
    rw [lenientChars.eq_def]
    split <;>
      first
        | rfl
        | (exact absurd rfl (hno1 _ _ _))
        | (exact absurd rfl (hno2 _ _))

/-- C9 (counterexample): the claim says parse_time succeeds exactly on
strict zero-padded two-digit HH:MM strings and fails on everything else;
but the non-padded string "7:00" is accepted by the code. -/
theorem spec_C9_counterexample :
    parse_time "7:00" = some ⟨7, 0⟩ ∧ strict_hhmm "7:00" = false := by
  constructor
  · rfl
  · rfl

/-- C9 (amended): `parse_time` succeeds exactly on clock strings whose
hour is written with one or two digits (value at most 23) and whose
minute is written with one or two digits (a two-digit minute having tens
digit at most 5), separated by a colon; zero padding is not required, and
every other input fails with a format error. -/
theorem spec_C9_amended (s : String) : (parse_time s).isSome = lenient_hhmm s := by
  rw [parse_time_isSome, lenient_hhmm]
  exact parseHM_isSome_eq s.data

/-! ### C8: inconsistent preferences are non-fatal -/

theorem allocBlocks_frame (sorted : List PyTask) (wakeMin wsMin weMin bedMin : Int) :
    (allocBlocks sorted wakeMin wsMin weMin bedMin).map frame =
      [(wakeMin, wsMin, "morning", wsMin - wakeMin),
       (wsMin, weMin, "work", weMin - wsMin),
       (weMin, bedMin, "evening", bedMin - weMin)] := by
  have h := allocScan_frame sorted (scan_blocks wakeMin wsMin weMin bedMin)
  have hlen : (allocScan sorted (scan_blocks wakeMin wsMin weMin bedMin)).length = 3 := by
    have := congrArg List.length h
    simpa [scan_blocks] using this
  obtain ⟨x, y, z, hxyz⟩ := List.length_eq_three.mp hlen
  rw [allocBlocks, hxyz, constructionOrder]
  rw [hxyz] at h
  simp only [scan_blocks, List.map_cons, List.map_nil, List.cons.injEq, and_true] at h
  obtain ⟨hx, hy, hz⟩ := h
  simp only [List.map_cons, List.map_nil, List.cons.injEq, and_true]
  exact ⟨hx.trans rfl, hz.trans rfl, hy.trans rfl⟩

theorem spec_C8 (tasks : List PyTask) (p : Preferences) (wake ws we bed : PyTime)
    (hw : parse_time p.wake_up_time = some wake)
    (hs : parse_time p.work_start = some ws)
    (he : parse_time p.work_end = some we)
    (hb : parse_time p.bedtime = some bed)
    (hviol : ¬((time_to_minutes wake : Int) ≤ (time_to_minutes ws : Int) ∧
        (time_to_minutes ws : Int) ≤ (time_to_minutes we : Int) ∧
        (time_to_minutes we : Int) ≤ (time_to_minutes bed : Int)))
    (hpr : ∀ t ∈ incompleteTasks tasks, (priority_order t.priority).isSome = true)
    (hdur : ∀ t ∈ tasks, 0 < t.duration) :
    (∃ out, allocate_time_slots tasks p = some out) ∧
    (∃ s, calculate_remaining_time p = some s) ∧
    (∀ b ∈ allocBlocks ((incompleteTasks tasks).mergeSort pLe)
        (time_to_minutes wake : Int) (time_to_minutes ws : Int)
        (time_to_minutes we : Int) (time_to_minutes bed : Int),
      (b.available ≤ 0 → b.tasks = []) ∧
      (b.btype = "morning" → (time_to_minutes ws : Int) < (time_to_minutes wake : Int) →
        b.tasks = [])) ∧
    minutes_to_time (-60) = "-1:00" := by
  have hsorted_dur : ∀ t ∈ (incompleteTasks tasks).mergeSort pLe, 0 < t.duration := by
    intro t ht
    rw [List.mem_mergeSort] at ht
    exact hdur t (List.mem_of_mem_filter ht)
  have hgood := allocBlocks_good tasks wake ws we bed
    (time_to_minutes_lt _ _ hw) (time_to_minutes_lt _ _ hs)
    (time_to_minutes_lt _ _ he) (time_to_minutes_lt _ _ hb)
    ((incompleteTasks tasks).mergeSort pLe) hsorted_dur
  refine ⟨⟨_, allocate_time_slots_eq_some tasks p wake ws we bed hw hs he hb hpr hdur⟩,
    ⟨_, by rw [calculate_remaining_time, hw, hs, he, hb]⟩, ?_, rfl⟩
  intro b hbmem
  have hg := hgood b hbmem
  refine ⟨hg.1.2.2.2, ?_⟩
  intro hty hlt
  apply hg.1.2.2.2
  have hfr : frame b ∈ (allocBlocks ((incompleteTasks tasks).mergeSort pLe)
      (time_to_minutes wake : Int) (time_to_minutes ws : Int)
      (time_to_minutes we : Int) (time_to_minutes bed : Int)).map frame :=
    List.mem_map_of_mem frame hbmem
  rw [allocBlocks_frame] at hfr
  simp only [List.mem_cons, List.not_mem_nil, or_false] at hfr
  have hava : b.available = (time_to_minutes ws : Int) - (time_to_minutes wake : Int) := by
    rcases hfr with h1 | h1 | h1
    · have := congrArg (fun q => q.2.2.2) h1
      simpa [frame] using this
    · have := congrArg (fun q => q.2.2.1) h1
      simp [frame] at this
      rw [hty] at this
      exact absurd this.symm (by decide)
    · have := congrArg (fun q => q.2.2.1) h1
      simp [frame] at this
      rw [hty] at this
      exact absurd this.symm (by decide)
  omega

theorem spec_C8_witness :
    (∃ out, allocate_time_slots [⟨1, "A", "High", 60, false⟩]
        ⟨"10:00", "07:00", "17:00", "23:00"⟩ = some out) ∧
    (∃ s, calculate_remaining_time ⟨"10:00", "07:00", "17:00", "23:00"⟩ = some s) ∧
    (∀ b ∈ allocBlocks ((incompleteTasks [⟨1, "A", "High", 60, false⟩]).mergeSort pLe)
        ((time_to_minutes ⟨10, 0⟩ : Int)) ((time_to_minutes ⟨7, 0⟩ : Int))
        ((time_to_minutes ⟨17, 0⟩ : Int)) ((time_to_minutes ⟨23, 0⟩ : Int)),
      (b.available ≤ 0 → b.tasks = []) ∧
      (b.btype = "morning" → (time_to_minutes ⟨7, 0⟩ : Int) < (time_to_minutes ⟨10, 0⟩ : Int) →
        b.tasks = [])) ∧
    minutes_to_time (-60) = "-1:00" :=
  spec_C8 [⟨1, "A", "High", 60, false⟩] ⟨"10:00", "07:00", "17:00", "23:00"⟩
    ⟨10, 0⟩ ⟨7, 0⟩ ⟨17, 0⟩ ⟨23, 0⟩ rfl rfl rfl rfl (by decide) (by decide) (by decide)

/-! ### C4: conservation without overflow -/

/-- C4: with consistent preferences, well-formed tasks (positive durations,
unique ids among incomplete tasks, known priorities) and total incomplete
duration at most the total capacity of the three blocks,
`allocate_time_slots` succeeds and, for every incomplete task, the
durations of the schedule entries carrying its id sum to exactly the
task's duration — no loss and no duplication. -/
theorem spec_C4 (tasks : List PyTask) (p : Preferences) (wake ws we bed : PyTime)
    (hw : parse_time p.wake_up_time = some wake)
    (hs : parse_time p.work_start = some ws)
    (he : parse_time p.work_end = some we)
    (hb : parse_time p.bedtime = some bed)
    (hord : (time_to_minutes wake : Int) ≤ (time_to_minutes ws : Int) ∧
        (time_to_minutes ws : Int) ≤ (time_to_minutes we : Int) ∧
        (time_to_minutes we : Int) ≤ (time_to_minutes bed : Int))
    (hpr : ∀ t ∈ incompleteTasks tasks, (priority_order t.priority).isSome = true)
    (hdur : ∀ t ∈ tasks, 0 < t.duration)
    (hnd : ((incompleteTasks tasks).map (fun t => t.id)).Nodup)
    (hcap : sumDur (incompleteTasks tasks) ≤
        ((time_to_minutes ws : Int) - (time_to_minutes wake : Int)) +
        ((time_to_minutes we : Int) - (time_to_minutes ws : Int)) +
        ((time_to_minutes bed : Int) - (time_to_minutes we : Int))) :
    ∃ schedule fixed_entries,
      allocate_time_slots tasks p = some (schedule, fixed_entries) ∧
      ∀ t ∈ incompleteTasks tasks, schedIdDur t.id schedule = t.duration := by
  have halloc := allocate_time_slots_eq_some tasks p wake ws we bed hw hs he hb hpr hdur
  refine ⟨_, _, halloc, ?_⟩
  intro t ht
  have hperm : ((incompleteTasks tasks).mergeSort pLe).Perm (incompleteTasks tasks) :=
    List.mergeSort_perm _ _
  rw [schedIdDur_perm _ _ _ (List.mergeSort_perm _ _), schedIdDur_append, schedIdDur_fixed,
    schedIdDur_flatMap, zero_add, allocBlocks, constructionOrder_idDurAll]
  apply allocScan_conserve
  · intro u hu
    rw [List.mem_mergeSort] at hu
    exact hdur u (List.mem_of_mem_filter hu)
  · exact (List.Perm.nodup_iff (hperm.map _)).mpr hnd
  · intro b hbm
    simp only [scan_blocks, List.mem_cons, List.not_mem_nil, or_false] at hbm
    rcases hbm with rfl | rfl | rfl <;>
      (simp only [remainingCap, mkBlock]; omega)
  · have hsum : sumDur ((incompleteTasks tasks).mergeSort pLe) =
        sumDur (incompleteTasks tasks) := by
      simp only [sumDur]
      exact ((hperm).map _).sum_eq
    rw [hsum]
    simp only [scan_blocks, totRem_cons, totRem_nil, remainingCap, mkBlock]
    omega
  · intro b hbm
    simp only [scan_blocks, List.mem_cons, List.not_mem_nil, or_false] at hbm
    rcases hbm with rfl | rfl | rfl <;> simp [mkBlock]
  · exact List.mem_mergeSort.mpr ht

theorem spec_C4_witness :
    ∃ schedule fixed_entries,
      allocate_time_slots [⟨1, "A", "High", 60, false⟩] ⟨"07:00", "10:00", "17:00", "23:00"⟩ =
        some (schedule, fixed_entries) ∧
      ∀ t ∈ incompleteTasks [⟨1, "A", "High", 60, false⟩],
        schedIdDur t.id schedule = t.duration :=
  spec_C4 [⟨1, "A", "High", 60, false⟩] ⟨"07:00", "10:00", "17:00", "23:00"⟩
    ⟨7, 0⟩ ⟨10, 0⟩ ⟨17, 0⟩ ⟨23, 0⟩ rfl rfl rfl rfl (by decide) (by decide) (by decide)
    (by decide) (by decide)

/-! ### C6: schedule assembly and stable time ordering -/

theorem blockEntriesAux_length (ts : List PyTask) :
    ∀ ct : Int, (blockEntriesAux ct ts).length = ts.length := by
  induction ts with
  | nil => intro ct; rfl
  | cons t ts ih => intro ct; simp [blockEntriesAux, ih]

theorem blockEntriesAux_get (ts : List PyTask) :
    ∀ (ct : Int) (i : Nat) (hi : i < ts.length) (hi2 : i < (blockEntriesAux ct ts).length),
      (blockEntriesAux ct ts).get ⟨i, hi2⟩ =
        mkEntry (ct + sumDur (ts.take i)) (ts.get ⟨i, hi⟩) := by
  induction ts with
  | nil => intro ct i hi; simp at hi
  | cons t ts ih =>
    intro ct i hi hi2
    cases i with
    | zero => simp [blockEntriesAux]
    | succ j =>
      have hj : j < ts.length := Nat.lt_of_succ_lt_succ hi
      have hj2 : j < (blockEntriesAux (ct + t.duration) ts).length := by
        rw [blockEntriesAux_length]
        exact hj
      have := ih (ct + t.duration) j hj hj2
      simp only [blockEntriesAux, List.get_cons_succ, this, List.take_succ_cons,
        sumDur_cons]
      rw [add_assoc]

/-- C6: the returned schedule is the stable sort by clock time of the four
fixed entries followed by the per-block task entries; inside a block the
i-th entry's clock time is the block start plus the durations of the
earlier entries; the sort is a permutation, sorted by key, and stable:
pairs already in key order keep their relative order, so a fixed boundary
entry always precedes a task entry carrying the same clock time. -/
theorem spec_C6 (tasks : List PyTask) (p : Preferences) (sched fx : List Entry)
    (halloc : allocate_time_slots tasks p = some (sched, fx)) :
    ∃ wake ws we bed sorted,
      parse_time p.wake_up_time = some wake ∧ parse_time p.work_start = some ws ∧
      parse_time p.work_end = some we ∧ parse_time p.bedtime = some bed ∧
      sortIncomplete tasks = some sorted ∧ fx = fixed_schedule p ∧
      (∀ b ∈ allocBlocks sorted (time_to_minutes wake : Int) (time_to_minutes ws : Int)
          (time_to_minutes we : Int) (time_to_minutes bed : Int),
        ∀ (i : Nat) (hi : i < b.tasks.length) (hi2 : i < (blockEntries b).length),
          (blockEntries b).get ⟨i, hi2⟩ =
            mkEntry (b.startMin + sumDur (b.tasks.take i)) (b.tasks.get ⟨i, hi⟩)) ∧
      sched = (fixed_schedule p ++ (allocBlocks sorted (time_to_minutes wake : Int)
          (time_to_minutes ws : Int) (time_to_minutes we : Int)
          (time_to_minutes bed : Int)).flatMap blockEntries).mergeSort entryLe ∧
      sched.Perm (fixed_schedule p ++ (allocBlocks sorted (time_to_minutes wake : Int)
          (time_to_minutes ws : Int) (time_to_minutes we : Int)
          (time_to_minutes bed : Int)).flatMap blockEntries) ∧
      sched.Pairwise (fun e1 e2 => entryKeyD e1 ≤ entryKeyD e2) ∧
      (∀ e1 e2 : Entry,
        [e1, e2].Sublist (fixed_schedule p ++ (allocBlocks sorted
          (time_to_minutes wake : Int) (time_to_minutes ws : Int)
          (time_to_minutes we : Int) (time_to_minutes bed : Int)).flatMap blockEntries) →
        entryKeyD e1 ≤ entryKeyD e2 → [e1, e2].Sublist sched) ∧
      (∀ f ∈ fixed_schedule p, ∀ e ∈ (allocBlocks sorted (time_to_minutes wake : Int)
          (time_to_minutes ws : Int) (time_to_minutes we : Int)
          (time_to_minutes bed : Int)).flatMap blockEntries,
        entryKeyD f = entryKeyD e → [f, e].Sublist sched) := by
  obtain ⟨wake, ws, we, bed, sorted, hw, hs, he, hb, hsort, hfx, hsched⟩ :=
    allocate_time_slots_some_inv tasks p sched fx halloc
  refine ⟨wake, ws, we, bed, sorted, hw, hs, he, hb, hsort, hfx, ?_, hsched, ?_, ?_, ?_, ?_⟩
  · intro b _ i hi hi2
    exact blockEntriesAux_get b.tasks b.startMin i hi hi2
  · rw [hsched]
    exact List.mergeSort_perm _ _
  · rw [hsched]
    have := List.sorted_mergeSort entryLe_trans entryLe_total
      (fixed_schedule p ++ (allocBlocks sorted (time_to_minutes wake : Int)
        (time_to_minutes ws : Int) (time_to_minutes we : Int)
        (time_to_minutes bed : Int)).flatMap blockEntries)
    exact this.imp (fun h => by simpa [entryLe] using h)
  · intro e1 e2 hsub hk
    rw [hsched]
    exact List.pair_sublist_mergeSort entryLe_trans entryLe_total
      (by simpa [entryLe] using hk) hsub
  · intro f hf e hemem hk
    rw [hsched]
    refine List.pair_sublist_mergeSort entryLe_trans entryLe_total
      (by simp [entryLe, hk]) ?_
    have h1 : List.Sublist [f] (fixed_schedule p) := List.singleton_sublist.mpr hf
    have h2 : List.Sublist [e] ((allocBlocks sorted (time_to_minutes wake : Int)
        (time_to_minutes ws : Int) (time_to_minutes we : Int)
        (time_to_minutes bed : Int)).flatMap blockEntries) := List.singleton_sublist.mpr hemem
    exact h1.append h2

theorem spec_C6_witness :
    ∃ wake ws we bed sorted,
      parse_time (Preferences.mk "07:00" "10:00" "17:00" "23:00").wake_up_time = some wake ∧
      parse_time (Preferences.mk "07:00" "10:00" "17:00" "23:00").work_start = some ws ∧
      parse_time (Preferences.mk "07:00" "10:00" "17:00" "23:00").work_end = some we ∧
      parse_time (Preferences.mk "07:00" "10:00" "17:00" "23:00").bedtime = some bed ∧
      sortIncomplete ([] : List PyTask) = some sorted ∧
      fixed_schedule (Preferences.mk "07:00" "10:00" "17:00" "23:00") =
        fixed_schedule (Preferences.mk "07:00" "10:00" "17:00" "23:00") ∧
      (∀ b ∈ allocBlocks sorted (time_to_minutes wake : Int) (time_to_minutes ws : Int)
          (time_to_minutes we : Int) (time_to_minutes bed : Int),
        ∀ (i : Nat) (hi : i < b.tasks.length) (hi2 : i < (blockEntries b).length),
          (blockEntries b).get ⟨i, hi2⟩ =
            mkEntry (b.startMin + sumDur (b.tasks.take i)) (b.tasks.get ⟨i, hi⟩)) ∧
      ((fixed_schedule (Preferences.mk "07:00" "10:00" "17:00" "23:00") ++
          (allocBlocks ((incompleteTasks ([] : List PyTask)).mergeSort pLe)
            (time_to_minutes (PyTime.mk 7 0) : Int) (time_to_minutes (PyTime.mk 10 0) : Int)
            (time_to_minutes (PyTime.mk 17 0) : Int)
            (time_to_minutes (PyTime.mk 23 0) : Int)).flatMap blockEntries).mergeSort entryLe) =
        (fixed_schedule (Preferences.mk "07:00" "10:00" "17:00" "23:00") ++
          (allocBlocks sorted (time_to_minutes wake : Int)
            (time_to_minutes ws : Int) (time_to_minutes we : Int)
            (time_to_minutes bed : Int)).flatMap blockEntries).mergeSort entryLe ∧
      ((fixed_schedule (Preferences.mk "07:00" "10:00" "17:00" "23:00") ++
          (allocBlocks ((incompleteTasks ([] : List PyTask)).mergeSort pLe)
            (time_to_minutes (PyTime.mk 7 0) : Int) (time_to_minutes (PyTime.mk 10 0) : Int)
            (time_to_minutes (PyTime.mk 17 0) : Int)
            (time_to_minutes (PyTime.mk 23 0) : Int)).flatMap blockEntries).mergeSort
              entryLe).Perm
        (fixed_schedule (Preferences.mk "07:00" "10:00" "17:00" "23:00") ++
          (allocBlocks sorted (time_to_minutes wake : Int)
            (time_to_minutes ws : Int) (time_to_minutes we : Int)
            (time_to_minutes bed : Int)).flatMap blockEntries) ∧
      ((fixed_schedule (Preferences.mk "07:00" "10:00" "17:00" "23:00") ++
          (allocBlocks ((incompleteTasks ([] : List PyTask)).mergeSort pLe)
            (time_to_minutes (PyTime.mk 7 0) : Int) (time_to_minutes (PyTime.mk 10 0) : Int)
            (time_to_minutes (PyTime.mk 17 0) : Int)
            (time_to_minutes (PyTime.mk 23 0) : Int)).flatMap blockEntries).mergeSort
              entryLe).Pairwise (fun e1 e2 => entryKeyD e1 ≤ entryKeyD e2) ∧
      (∀ e1 e2 : Entry,
        [e1, e2].Sublist (fixed_schedule (Preferences.mk "07:00" "10:00" "17:00" "23:00") ++
          (allocBlocks sorted (time_to_minutes wake : Int) (time_to_minutes ws : Int)
            (time_to_minutes we : Int) (time_to_minutes bed : Int)).flatMap blockEntries) →
        entryKeyD e1 ≤ entryKeyD e2 →
        [e1, e2].Sublist ((fixed_schedule (Preferences.mk "07:00" "10:00" "17:00" "23:00") ++
          (allocBlocks ((incompleteTasks ([] : List PyTask)).mergeSort pLe)
            (time_to_minutes (PyTime.mk 7 0) : Int) (time_to_minutes (PyTime.mk 10 0) : Int)
            (time_to_minutes (PyTime.mk 17 0) : Int)
            (time_to_minutes (PyTime.mk 23 0) : Int)).flatMap blockEntries).mergeSort
              entryLe)) ∧
      (∀ f ∈ fixed_schedule (Preferences.mk "07:00" "10:00" "17:00" "23:00"),
        ∀ e ∈ (allocBlocks sorted (time_to_minutes wake : Int) (time_to_minutes ws : Int)
            (time_to_minutes we : Int) (time_to_minutes bed : Int)).flatMap blockEntries,
        entryKeyD f = entryKeyD e →
        [f, e].Sublist ((fixed_schedule (Preferences.mk "07:00" "10:00" "17:00" "23:00") ++
          (allocBlocks ((incompleteTasks ([] : List PyTask)).mergeSort pLe)
            (time_to_minutes (PyTime.mk 7 0) : Int) (time_to_minutes (PyTime.mk 10 0) : Int)
            (time_to_minutes (PyTime.mk 17 0) : Int)
            (time_to_minutes (PyTime.mk 23 0) : Int)).flatMap blockEntries).mergeSort
              entryLe)) :=
  spec_C6 [] (Preferences.mk "07:00" "10:00" "17:00" "23:00") _ _
    (allocate_time_slots_eq_some [] (Preferences.mk "07:00" "10:00" "17:00" "23:00")
      ⟨7, 0⟩ ⟨10, 0⟩ ⟨17, 0⟩ ⟨23, 0⟩ rfl rfl rfl rfl (by decide) (by decide))

/-! ### C5: stability of the priority sort through placement and assembly -/

theorem placeWhole_tasks_forall2 (t : PyTask) :
    ∀ bs bs2, placeWhole t bs = some bs2 →
      List.Forall₂ (fun b b2 => ∃ xs, b2.tasks = b.tasks ++ xs ∧ ∀ v ∈ xs, v.id = t.id)
        bs bs2 := by
  intro bs
  induction bs with
  | nil => intro bs2 h; simp [placeWhole] at h
  | cons b rest ih =>
    intro bs2 h
    rw [placeWhole] at h
    split at h
    · simp only [Option.some.injEq] at h
      subst h
      refine List.Forall₂.cons ⟨[t], rfl, by simp⟩ ?_
      exact List.forall₂_same.mpr (fun b2 _ => ⟨[], by simp, by simp⟩)
    · simp only [Option.map_eq_some'] at h
      obtain ⟨l, hl, rfl⟩ := h
      exact List.Forall₂.cons ⟨[], by simp, by simp⟩ (ih l hl)

theorem placeSplit_tasks_forall2 (t : PyTask) :
    ∀ bs d, List.Forall₂ (fun b b2 => ∃ xs, b2.tasks = b.tasks ++ xs ∧ ∀ v ∈ xs, v.id = t.id)
      bs (placeSplit t d bs) := by
  intro bs
  induction bs with
  | nil => intro d; rw [placeSplit]; exact .nil
  | cons b rest ih =>
    intro d
    rw [placeSplit]
    split
    · split
      · refine List.Forall₂.cons ⟨[mkFrag t _], rfl, by simp [mkFrag]⟩ ?_
        exact List.forall₂_same.mpr (fun b2 _ => ⟨[], by simp, by simp⟩)
      · exact List.Forall₂.cons ⟨[mkFrag t _], rfl, by simp [mkFrag]⟩ (ih _)
    · exact List.Forall₂.cons ⟨[], by simp, by simp⟩ (ih d)

theorem allocTask_tasks_forall2 (bs : List Block) (t : PyTask) :
    List.Forall₂ (fun b b2 => ∃ xs, b2.tasks = b.tasks ++ xs ∧ ∀ v ∈ xs, v.id = t.id)
      bs (allocTask bs t) := by
  rw [allocTask]
  split
  · rename_i bs2 hpw
    exact placeWhole_tasks_forall2 t bs bs2 hpw
  · exact placeSplit_tasks_forall2 t bs t.duration

theorem forall2_append_comp (P1 P2 : PyTask → Prop) :
    ∀ {l1 l2 l3 : List Block},
      List.Forall₂ (fun b b2 => ∃ xs, b2.tasks = b.tasks ++ xs ∧ ∀ v ∈ xs, P1 v) l1 l2 →
      List.Forall₂ (fun b b2 => ∃ xs, b2.tasks = b.tasks ++ xs ∧ ∀ v ∈ xs, P2 v) l2 l3 →
      List.Forall₂ (fun b b2 => ∃ xs, b2.tasks = b.tasks ++ xs ∧ ∀ v ∈ xs, P1 v ∨ P2 v)
        l1 l3 := by
  intro l1 l2 l3 h1
  induction h1 generalizing l3 with
  | nil =>
    intro h2
    cases h2
    exact .nil
  | cons hr hrest ih =>
    intro h2
    cases h2 with
    | cons hr2 hrest2 =>
      refine List.Forall₂.cons ?_ (ih hrest2)
      obtain ⟨xs, hxs, hP⟩ := hr
      obtain ⟨ys, hys, hQ⟩ := hr2
      refine ⟨xs ++ ys, by rw [hys, hxs, List.append_assoc], ?_⟩
      intro v hv
      rcases List.mem_append.mp hv with h | h
      · exact Or.inl (hP v h)
      · exact Or.inr (hQ v h)

@[simp] theorem allocScan_nil (bs : List Block) : allocScan [] bs = bs := rfl

theorem allocScan_cons (t : PyTask) (ts : List PyTask) (bs : List Block) :
    allocScan (t :: ts) bs = allocScan ts (allocTask bs t) := rfl

theorem allocScan_tasks_forall2 :
    ∀ (todo : List PyTask) (bs : List Block),
      List.Forall₂ (fun b b2 => ∃ xs, b2.tasks = b.tasks ++ xs ∧
        ∀ v ∈ xs, v.id ∈ todo.map (fun u => u.id)) bs (allocScan todo bs) := by
  intro todo
  induction todo with
  | nil =>
    intro bs
    exact List.forall₂_same.mpr (fun b _ => ⟨[], by simp, by simp⟩)
  | cons t rest ih =>
    intro bs
    rw [allocScan_cons]
    have hcomp := forall2_append_comp (fun v => v.id = t.id)
      (fun v => v.id ∈ rest.map (fun u => u.id))
      (allocTask_tasks_forall2 bs t) (ih (allocTask bs t))
    refine hcomp.imp ?_
    intro b b2 hr
    obtain ⟨xs, hxs, hP⟩ := hr
    refine ⟨xs, hxs, ?_⟩
    intro v hv
    rcases hP v hv with h | h
    · simp [h]
    · simp only [List.map_cons, List.mem_cons]
      exact Or.inr h

theorem allocScan_pair_in_block :
    ∀ (todo : List PyTask) (bs : List Block) (u1 u2 : PyTask),
      (todo.map (fun u => u.id)).Nodup →
      (∀ b ∈ bs, ∀ v ∈ b.tasks, v.id ∉ todo.map (fun u => u.id)) →
      List.Sublist [u1, u2] todo →
      ∀ b ∈ allocScan todo bs, u1 ∈ b.tasks → u2 ∈ b.tasks →
        List.Sublist [u1, u2] b.tasks := by
  intro todo
  induction todo with
  | nil =>
    intro bs u1 u2 _ _ hsub
    simp at hsub
  | cons t0 rest ih =>
    intro bs u1 u2 hnd hfresh hsub b hbmem h1 h2
    simp only [List.map_cons, List.nodup_cons] at hnd
    obtain ⟨hnd0, hndr⟩ := hnd
    have hfresh2 : ∀ b2 ∈ allocTask bs t0, ∀ v ∈ b2.tasks,
        v.id ∉ rest.map (fun u => u.id) := by
      apply allocTask_inv_all t0
        (fun b2 => ∀ v ∈ b2.tasks, v.id ∉ rest.map (fun u => u.id)) ?_ ?_ bs ?_
      · intro b2 hb2 _ v hv
        rcases List.mem_append.mp hv with h | h
        · exact hb2 v h
        · simp only [List.mem_singleton] at h
          subst h
          exact hnd0
      · intro b2 d hb2 _ v hv
        rcases List.mem_append.mp hv with h | h
        · exact hb2 v h
        · simp only [List.mem_singleton] at h
          subst h
          exact hnd0
      · intro b2 hb2 v hv
        have := hfresh b2 hb2 v hv
        simp only [List.map_cons, List.mem_cons, not_or] at this
        exact this.2
    rw [allocScan_cons] at hbmem
    cases hsub with
    | cons _ hsub2 =>
      exact ih (allocTask bs t0) u1 u2 hndr hfresh2 hsub2 b hbmem h1 h2
    | cons₂ _ hsub2 =>
      -- here u1 = t0 and [u2] is a sublist of rest
      have hu2rest : u2 ∈ rest := by
        have := hsub2.subset
        simp only [List.cons_subset, List.nil_subset, and_true] at this
        exact this
      have hu2id : u2.id ∈ rest.map (fun u => u.id) := List.mem_map_of_mem _ hu2rest
      have hforall := allocScan_tasks_forall2 rest (allocTask bs t0)
      obtain ⟨⟨i, hi⟩, hbeq⟩ := List.mem_iff_get.mp hbmem
      have hlen := hforall.length_eq
      have hlen0 := (allocTask_tasks_forall2 bs t0).length_eq
      have hrel := hforall.get (i := i) (by omega) hi
      rw [hbeq] at hrel
      obtain ⟨xs, hbtasks, hxs⟩ := hrel
      have hrel0 := (allocTask_tasks_forall2 bs t0).get (i := i) (by omega) (by omega)
      obtain ⟨ys, hytasks, hys⟩ := hrel0
      -- the first task is in the prefix placed no later than its own step
      have hu1pre : t0 ∈ ((allocTask bs t0).get ⟨i, by omega⟩).tasks := by
        rcases List.mem_append.mp (hbtasks ▸ h1) with h | h
        · exact h
        · exact absurd (hxs t0 h) hnd0
      -- u2 only enters during a later step
      have hu2xs : u2 ∈ xs := by
        rcases List.mem_append.mp (hbtasks ▸ h2) with h | h
        · exfalso
          rcases List.mem_append.mp (hytasks ▸ h) with h3 | h3
          · have hmem0 : (bs.get ⟨i, by omega⟩) ∈ bs := List.get_mem bs i _
            have := hfresh _ hmem0 u2 h3
            simp only [List.map_cons, List.mem_cons, not_or] at this
            exact this.2 hu2id
          · have := hys u2 h3
            exact hnd0 (this ▸ hu2id)
        · exact h
      rw [hbtasks]
      exact List.Sublist.append (List.singleton_sublist.mpr hu1pre)
        (List.singleton_sublist.mpr hu2xs)

theorem mem_blockEntriesAux (u : PyTask) :
    ∀ (ts : List PyTask) (ct : Int), 0 ≤ ct → (∀ w ∈ ts, 0 < w.duration) →
      ct + sumDur ts ≤ 1440 → u ∈ ts →
      ∃ c : Int, mkEntry c u ∈ blockEntriesAux ct ts ∧
        entryKey (mkEntry c u) = some c.toNat ∧ ct ≤ c := by
  intro ts
  induction ts with
  | nil => intro ct _ _ _ hu; simp at hu
  | cons v ts ih =>
    intro ct h0 hpos hb hu
    have hd : 0 < v.duration := hpos v (by simp)
    have hs : 0 ≤ sumDur ts := sumDur_nonneg ts (fun w hw => hpos w (by simp [hw]))
    simp only [sumDur_cons] at hb
    rcases List.mem_cons.mp hu with rfl | hu2
    · exact ⟨ct, by rw [blockEntriesAux]; exact List.mem_cons_self _ _,
        entryKey_mkEntry ct u h0 (by omega), le_refl ct⟩
    · obtain ⟨c, hmem, hk, hc⟩ := ih (ct + v.duration) (by omega)
        (fun w hw => hpos w (by simp [hw])) (by omega) hu2
      exact ⟨c, by rw [blockEntriesAux]; exact List.mem_cons_of_mem _ hmem, hk, by omega⟩

theorem pair_sublist_blockEntriesAux (u1 u2 : PyTask) :
    ∀ (ts : List PyTask) (ct : Int), 0 ≤ ct → (∀ w ∈ ts, 0 < w.duration) →
      ct + sumDur ts ≤ 1440 → List.Sublist [u1, u2] ts →
      ∃ c1 c2 : Int, List.Sublist [mkEntry c1 u1, mkEntry c2 u2] (blockEntriesAux ct ts) ∧
        entryKey (mkEntry c1 u1) = some c1.toNat ∧
        entryKey (mkEntry c2 u2) = some c2.toNat ∧ 0 ≤ c1 ∧ c1 ≤ c2 := by
  intro ts
  induction ts with
  | nil => intro ct _ _ _ hsub; simp at hsub
  | cons v ts ih =>
    intro ct h0 hpos hb hsub
    have hd : 0 < v.duration := hpos v (by simp)
    have hs : 0 ≤ sumDur ts := sumDur_nonneg ts (fun w hw => hpos w (by simp [hw]))
    simp only [sumDur_cons] at hb
    cases hsub with
    | cons _ hsub2 =>
      obtain ⟨c1, c2, hsubE, hk1, hk2, hc1, hc12⟩ := ih (ct + v.duration) (by omega)
        (fun w hw => hpos w (by simp [hw])) (by omega) hsub2
      exact ⟨c1, c2, by rw [blockEntriesAux]; exact hsubE.cons _, hk1, hk2, hc1, hc12⟩
    | cons₂ _ hsub2 =>
      have hu2 : u2 ∈ ts := by
        have := hsub2.subset
        simp only [List.cons_subset, List.nil_subset, and_true] at this
        exact this
      obtain ⟨c2, hmem, hk2, hc2⟩ := mem_blockEntriesAux u2 ts (ct + u1.duration)
        (by omega) (fun w hw => hpos w (by simp [hw])) (by omega) hu2
      refine ⟨ct, c2, ?_, entryKey_mkEntry ct u1 h0 (by omega), hk2, h0, by omega⟩
      rw [blockEntriesAux]
      exact (List.singleton_sublist.mpr hmem).cons₂ _

theorem blockEntries_sublist_flatMap (b : Block) (bs : List Block) (h : b ∈ bs) :
    List.Sublist (blockEntries b) (bs.flatMap blockEntries) := by
  obtain ⟨s, t2, rfl⟩ := List.append_of_mem h
  rw [List.flatMap_append, List.flatMap_cons]
  exact ((List.sublist_append_left (blockEntries b) (t2.flatMap blockEntries)).trans
    (List.sublist_append_right (s.flatMap blockEntries) _))

/-- C5: only incomplete tasks are considered, sorted stably by the fixed
priority order Critical < High < Medium < Low; two incomplete tasks of
equal priority keep their input order through the sort, and when both end
up placed whole in the same block, the schedule contains an entry for each
(same id, description and duration) with the first task's entry before the
second's. -/
theorem spec_C5 (tasks : List PyTask) (p : Preferences) (wake ws we bed : PyTime)
    (hw : parse_time p.wake_up_time = some wake)
    (hs : parse_time p.work_start = some ws)
    (he : parse_time p.work_end = some we)
    (hb : parse_time p.bedtime = some bed)
    (hpr : ∀ t ∈ incompleteTasks tasks, (priority_order t.priority).isSome = true)
    (hdur : ∀ t ∈ tasks, 0 < t.duration)
    (hnd : ((incompleteTasks tasks).map (fun t => t.id)).Nodup)
    (t1 t2 : PyTask)
    (hsub : List.Sublist [t1, t2] (incompleteTasks tasks))
    (hpeq : t1.priority = t2.priority)
    (b : Block)
    (hbmem : b ∈ allocBlocks ((incompleteTasks tasks).mergeSort pLe)
        (time_to_minutes wake : Int) (time_to_minutes ws : Int)
        (time_to_minutes we : Int) (time_to_minutes bed : Int))
    (h1 : t1 ∈ b.tasks) (h2 : t2 ∈ b.tasks) :
    sortIncomplete tasks = some ((incompleteTasks tasks).mergeSort pLe) ∧
    ((incompleteTasks tasks).mergeSort pLe).Perm (incompleteTasks tasks) ∧
    ((incompleteTasks tasks).mergeSort pLe).Pairwise (fun a c => pKey a ≤ pKey c) ∧
    List.Sublist [t1, t2] ((incompleteTasks tasks).mergeSort pLe) ∧
    ∃ schedule fixed_entries e1 e2,
      allocate_time_slots tasks p = some (schedule, fixed_entries) ∧
      e1.id = t1.id ∧ e1.task = t1.description ∧ e1.duration = t1.duration ∧
      e2.id = t2.id ∧ e2.task = t2.description ∧ e2.duration = t2.duration ∧
      List.Sublist [e1, e2] schedule := by
  have hperm : ((incompleteTasks tasks).mergeSort pLe).Perm (incompleteTasks tasks) :=
    List.mergeSort_perm _ _
  have hple : pLe t1 t2 = true := by
    simp only [pLe, decide_eq_true_eq, pKey, hpeq]
    exact le_refl _
  have hsorted_sub : List.Sublist [t1, t2] ((incompleteTasks tasks).mergeSort pLe) :=
    List.pair_sublist_mergeSort pLe_trans pLe_total hple hsub
  refine ⟨sortIncomplete_eq_some tasks hpr, hperm,
    (List.sorted_mergeSort pLe_trans pLe_total _).imp
      (fun h => by simpa [pLe] using h), hsorted_sub, ?_⟩
  have hsorted_dur : ∀ t ∈ (incompleteTasks tasks).mergeSort pLe, 0 < t.duration := by
    intro t ht
    rw [List.mem_mergeSort] at ht
    exact hdur t (List.mem_of_mem_filter ht)
  have hgood := allocBlocks_good tasks wake ws we bed
    (time_to_minutes_lt _ _ hw) (time_to_minutes_lt _ _ hs)
    (time_to_minutes_lt _ _ he) (time_to_minutes_lt _ _ hb)
    ((incompleteTasks tasks).mergeSort pLe) hsorted_dur
  have hgb := hgood b hbmem
  -- the two records appear in placement order inside the block list
  have hbtasks : List.Sublist [t1, t2] b.tasks := by
    have hbmem2 : b ∈ allocScan ((incompleteTasks tasks).mergeSort pLe)
        (scan_blocks (time_to_minutes wake : Int) (time_to_minutes ws : Int)
          (time_to_minutes we : Int) (time_to_minutes bed : Int)) := by
      rw [allocBlocks, constructionOrder_mem] at hbmem
      exact hbmem
    apply allocScan_pair_in_block ((incompleteTasks tasks).mergeSort pLe) _ t1 t2
      ((List.Perm.nodup_iff (hperm.map _)).mpr hnd) ?_ hsorted_sub b hbmem2 h1 h2
    intro b2 hb2 v hv
    simp only [scan_blocks, List.mem_cons, List.not_mem_nil, or_false] at hb2
    rcases hb2 with rfl | rfl | rfl <;> simp [mkBlock] at hv
  -- turn the pair of tasks into a pair of schedule entries
  obtain ⟨c1, c2, hsubE, hk1, hk2, hc1, hc12⟩ := pair_sublist_blockEntriesAux t1 t2
    b.tasks b.startMin hgb.2.1 hgb.1.2.1 (GoodBlock_bound b hgb) hbtasks
  have hkle : entryLe (mkEntry c1 t1) (mkEntry c2 t2) = true := by
    simp only [entryLe, decide_eq_true_eq, entryKeyD, hk1, hk2, Option.getD_some]
    omega
  refine ⟨_, _, mkEntry c1 t1, mkEntry c2 t2,
    allocate_time_slots_eq_some tasks p wake ws we bed hw hs he hb hpr hdur,
    rfl, rfl, rfl, rfl, rfl, rfl, ?_⟩
  apply List.pair_sublist_mergeSort entryLe_trans entryLe_total hkle
  refine List.Sublist.trans hsubE ?_
  refine List.Sublist.trans (blockEntries_sublist_flatMap b _ hbmem) ?_
  exact List.sublist_append_right _ _

theorem spec_C5_witness :
    sortIncomplete [⟨1, "A", "High", 30, false⟩, ⟨2, "B", "High", 30, false⟩] =
      some ((incompleteTasks [⟨1, "A", "High", 30, false⟩,
        ⟨2, "B", "High", 30, false⟩]).mergeSort pLe) ∧
    ((incompleteTasks [⟨1, "A", "High", 30, false⟩,
        ⟨2, "B", "High", 30, false⟩]).mergeSort pLe).Perm
      (incompleteTasks [⟨1, "A", "High", 30, false⟩, ⟨2, "B", "High", 30, false⟩]) ∧
    ((incompleteTasks [⟨1, "A", "High", 30, false⟩,
        ⟨2, "B", "High", 30, false⟩]).mergeSort pLe).Pairwise
      (fun a c => pKey a ≤ pKey c) ∧
    List.Sublist [⟨1, "A", "High", 30, false⟩, ⟨2, "B", "High", 30, false⟩]
      ((incompleteTasks [⟨1, "A", "High", 30, false⟩,
        ⟨2, "B", "High", 30, false⟩]).mergeSort pLe) ∧
    ∃ schedule fixed_entries e1 e2,
      allocate_time_slots [⟨1, "A", "High", 30, false⟩, ⟨2, "B", "High", 30, false⟩]
        ⟨"07:00", "10:00", "17:00", "23:00"⟩ = some (schedule, fixed_entries) ∧
      e1.id = (PyTask.mk 1 "A" "High" 30 false).id ∧
      e1.task = (PyTask.mk 1 "A" "High" 30 false).description ∧
      e1.duration = (PyTask.mk 1 "A" "High" 30 false).duration ∧
      e2.id = (PyTask.mk 2 "B" "High" 30 false).id ∧
      e2.task = (PyTask.mk 2 "B" "High" 30 false).description ∧
      e2.duration = (PyTask.mk 2 "B" "High" 30 false).duration ∧
      List.Sublist [e1, e2] schedule := by
  have hms : ((incompleteTasks [⟨1, "A", "High", 30, false⟩,
      ⟨2, "B", "High", 30, false⟩]).mergeSort pLe) =
      [⟨1, "A", "High", 30, false⟩, ⟨2, "B", "High", 30, false⟩] :=
    List.mergeSort_of_sorted (by decide)
  exact spec_C5 [⟨1, "A", "High", 30, false⟩, ⟨2, "B", "High", 30, false⟩]
    ⟨"07:00", "10:00", "17:00", "23:00"⟩ ⟨7, 0⟩ ⟨10, 0⟩ ⟨17, 0⟩ ⟨23, 0⟩
    rfl rfl rfl rfl (by decide) (by decide) (by decide)
    ⟨1, "A", "High", 30, false⟩ ⟨2, "B", "High", 30, false⟩
    (by decide) rfl
    (Block.mk 420 600 "morning" 180 60
      [⟨1, "A", "High", 30, false⟩, ⟨2, "B", "High", 30, false⟩])
    (by rw [hms]; decide) (by decide) (by decide)
